import Mathlib

/-!
Verification development for the two documentation-maintenance scripts
`hack/website/clean-md.py` and `hack/website/format.py`.

Strings are modelled as `List Char`.  Python's regular-expression and
string primitives (`re.findall` with the fixed pattern, `str.replace`,
`str.startswith`, the `in` operator, slicing) are embedded as executable
Lean functions.  Recursive scanners take an explicit fuel argument so that
every definition is kernel-computable; wrappers instantiate the fuel with
a bound that is always sufficient.
-/

/-- Convert a string literal to the `List Char` representation. -/
def chars (s : String) : List Char := s.toList

/-- Python `\w` on ASCII input: letters, digits and underscore. -/
def isWordChar (c : Char) : Bool := c.isAlphanum || c == '_'

/-- Python's substring test `pat in s`. -/
def containsStr (s pat : List Char) : Bool :=
  match s with
  | [] => pat.isEmpty
  | _ :: rest => pat.isPrefixOf s || containsStr rest pat

/-- Python's slice `s[-n:]`: the last `n` characters (all of `s` if shorter). -/
def lastN (n : Nat) (s : List Char) : List Char := s.drop (s.length - n)

/-- Fuel-indexed core of Python `str.replace` for a non-empty pattern
`p :: ps`: scan left to right, replacing each non-overlapping occurrence
and continuing after the replaced text. -/
def pyReplaceF (p : Char) (ps rep : List Char) : Nat → List Char → List Char
  | 0, _ => []
  | _ + 1, [] => []
  | f + 1, c :: rest =>
    if (p :: ps).isPrefixOf (c :: rest)
    then rep ++ pyReplaceF p ps rep f (List.drop ps.length rest)
    else c :: pyReplaceF p ps rep f rest

/-- Python `s.replace(pat, rep)`.  For the empty pattern CPython inserts
`rep` before every character and at the end; all uses in the two scripts
have a non-empty pattern. -/
def pyReplace (s pat rep : List Char) : List Char :=
  match pat with
  | [] => rep ++ s.foldr (fun c acc => c :: rep ++ acc) []
  | p :: ps => pyReplaceF p ps rep s.length s

/-!
## The link matcher

Both scripts run `re.findall(r'(\[(.*?)\]\((.*?)\))', data)`.  A match
anchored at a `[` consists of a lazy label (shortest run of non-newline
characters followed by `](`; on backtracking the label absorbs further
characters, so it may contain `]`), then a lazy target: the shortest run
of non-newline characters up to the first `)`.  `findall` scans left to
right, resuming after each match, and advancing one character on failure.
-/

/-- Lazy `(.*?)\)`: split off the shortest newline-free run before the
first `)`.  Returns the run and the remainder after the `)`. -/
def findTargetSplit : List Char → Option (List Char × List Char)
  | [] => none
  | c :: rest =>
    if c == ')' then some ([], rest)
    else if c == '\n' then none
    else match findTargetSplit rest with
      | some (t, r) => some (c :: t, r)
      | none => none

/-- Attempt a match of `(.*?)\]\((.*?)\)` (the part of the link pattern
after the opening `[`): find the first `](` reachable through newline-free
label text and then the first `)` after it; if no `)` follows a candidate
`](`, backtracking extends the label to the next `](`.  Returns label,
target and the text after the closing `)`. -/
def labelExtend (c : Char) :
    Option (List Char × List Char × List Char) → Option (List Char × List Char × List Char)
  | some (lab, t, r) => some (c :: lab, t, r)
  | none => none

def matchLink : List Char → Option (List Char × List Char × List Char)
  | [] => none
  | c :: rest =>
    if c == '\n' then none
    else if c == ']' then
      match rest with
      | c2 :: rest2 =>
        if c2 == '(' then
          match findTargetSplit rest2 with
          | some (t, r) => some ([], t, r)
          | none => labelExtend c (matchLink rest)
        else labelExtend c (matchLink rest)
      | [] => labelExtend c (matchLink rest)
    else labelExtend c (matchLink rest)

/-- Fuel-indexed `re.findall` scan: at each `[` try `matchLink` on the
rest; on success record (label, target) and resume after the match,
otherwise advance one character. -/
def findLinksF : Nat → List Char → List (List Char × List Char)
  | 0, _ => []
  | _ + 1, [] => []
  | f + 1, c :: rest =>
    if c == '[' then
      match matchLink rest with
      | some (lab, t, r) => (lab, t) :: findLinksF f r
      | none => findLinksF f rest
    else findLinksF f rest

/-- `re.findall(r'(\[(.*?)\]\((.*?)\))', s)` as the list of
(label, target) pairs; the full match is `wholeLink label target`. -/
def findLinks (s : List Char) : List (List Char × List Char) :=
  findLinksF s.length s

/-- The full matched substring `[label](target)`, i.e. group 1 of the
pattern, and also the replacement `"[{}]({})".format(label, newTarget)`. -/
def wholeLink (lab t : List Char) : List Char :=
  '[' :: lab ++ ']' :: '(' :: t ++ ')' :: []

/-!
## The per-link rewriting shared by both scripts

`clean-md.py` lines 6-22 and `format.py` lines 8-24 define `convert_link`.
The two bodies are identical except for the order of the two
`str.replace` calls on the target.
-/

/-- `url[2].startswith("http") or url[2].startswith("https")`. -/
def startsHttp (t : List Char) : Bool :=
  (chars "http").isPrefixOf t || (chars "https").isPrefixOf t

/-- `".md" in url[2] or ".mdx" in url[2]`. -/
def hasMdExt (t : List Char) : Bool :=
  containsStr t (chars ".md") || containsStr t (chars ".mdx")

/-- clean-md.py lines 15-16: `new_path = url[2].replace(".md", "")`
then `new_path = new_path.replace(".mdx", "")`. -/
def cleanMd_strip (t : List Char) : List Char :=
  pyReplace (pyReplace t (chars ".md") []) (chars ".mdx") []

/-- format.py lines 17-18: `new_path = url[2].replace(".mdx", "")`
then `new_path = new_path.replace(".md", "")`. -/
def fmt_strip (t : List Char) : List Char :=
  pyReplace (pyReplace t (chars ".mdx") []) (chars ".md") []

/-- One iteration of the `for url in url_arr` loop, parameterised by the
extension-stripping function.  The state is the evolving `data` string and
the list of `convert {url[0]} to {new_url}` diagnostic lines, each kept as
the pair (original match, replacement). -/
def linkStep (strip : List Char → List Char)
    (acc : List Char × List (List Char × List Char))
    (u : List Char × List Char) : List Char × List (List Char × List Char) :=
  if startsHttp u.2 then acc
  else if hasMdExt u.2 then
    (pyReplace acc.1 (wholeLink u.1 u.2) (wholeLink u.1 (strip u.2)),
     acc.2 ++ [(wholeLink u.1 u.2, wholeLink u.1 (strip u.2))])
  else acc

/-- `convert_link` of clean-md.py as a pure function on the file content:
`findall` runs once on the original content, then each rewritable link is
replaced globally (`data.replace(url[0], new_url)`) in the evolving data.
Returns the final content and the diagnostics. -/
def cleanMd_convert_link (data : List Char) :
    List Char × List (List Char × List Char) :=
  (findLinks data).foldl (linkStep cleanMd_strip) (data, [])

/-- `convert_link` of format.py; identical to `cleanMd_convert_link`
except that the target is stripped with `.mdx` removed first. -/
def fmt_convert_link (data : List Char) :
    List Char × List (List Char × List Char) :=
  (findLinks data).foldl (linkStep fmt_strip) (data, [])

/-!
## Directory traversal

`os.walk` is abstracted as the list of (full file path, file content)
pairs in traversal order; only the filename filter and the per-file
rewrite are modelled.
-/

/-- clean-md.py line 30: `file_path[-3:] == ".md" or file_path[-3:] == ".mdx"`.
The second comparison compares a 3-character slice with a 4-character
string. -/
def cleanMd_filter (file_path : List Char) : Bool :=
  lastN 3 file_path == chars ".md" || lastN 3 file_path == chars ".mdx"

/-- format.py line 32: `file_path[-3:] == ".md" or file_path[-4:] == ".mdx"`. -/
def fmt_filter (file_path : List Char) : Bool :=
  lastN 3 file_path == chars ".md" || lastN 4 file_path == chars ".mdx"

/-- The traversal loop shared by `main` (clean-md.py lines 25-31) and
`format_markdown` (format.py lines 27-33): visit each file, and rewrite
in place those whose path passes the filename filter.  Returns the final
tree contents and the concatenated diagnostics. -/
def runTree (filt : List Char → Bool)
    (conv : List Char → List Char × List (List Char × List Char))
    (files : List (List Char × List Char)) :
    List (List Char × List Char) × List (List Char × List Char) :=
  files.foldl
    (fun acc f =>
      if filt f.1 then
        (acc.1 ++ [(f.1, (conv f.2).1)], acc.2 ++ (conv f.2).2)
      else (acc.1 ++ [f], acc.2))
    ([], [])

/-- `main(path)` of clean-md.py on the abstracted tree. -/
def cleanMd_main (files : List (List Char × List Char)) :
    List (List Char × List Char) × List (List Char × List Char) :=
  runTree cleanMd_filter cleanMd_convert_link files

/-- `format_markdown(path)` of format.py on the abstracted tree. -/
def fmt_format_markdown (files : List (List Char × List Char)) :
    List (List Char × List Char) × List (List Char × List Char) :=
  runTree fmt_filter fmt_convert_link files


/-!
## The versions-file formatter (`format_json`, format.py lines 36-44)

`format_json` reads the file, applies `re.sub(r"(\w+)=", r"'\1':", content)`,
parses the result with `ast.literal_eval`, prints a diagnostic, then opens
the file in mode `"w"` (which truncates it) and writes `json.dumps(data)`.

The value domain of `ast.literal_eval` is modelled by `Value`: strings,
integers, booleans, `None`, lists, tuples, dicts and sets; dict keys
(which Python requires to be hashable) are modelled by `PKey`: strings,
integers, booleans and `None`.  Dict and list literals containing an
unhashable key (a list, dict or set) make `ast.literal_eval` raise, and
the model's parser rejects them likewise.  Python's dict key equality
identifies a boolean key with the numerically equal integer key
(`{1: 2, True: 3}` evaluates to `{1: 3}`, keeping the first key
object); `pkeySame` models this.  `json.dumps` coerces a tuple
to a JSON array and a non-string key to its string spelling (`1` to
`"1"`, `True` to `"true"`, `None` to `"null"`), so serialization
followed by JSON parsing is *not* the identity on such values; the
round-trip theorems carry this proviso explicitly and the coercions are
exhibited on concrete inputs.  Modelling restrictions, documented here
once: numeric literals are limited to optionally-signed decimal
integers without underscores (no floats, complex, hex or binary
literals; a float literal would round-trip unchanged through `repr`,
so this restriction affects no round-trip verdict), strings are limited
to quoted runs of printable ASCII without escape sequences (the parser
rejects `\`, control characters and non-ASCII rather than interpreting
them), bytes, tuple-valued and float-valued dict keys, and implicit
string-literal concatenation are not modelled.
-/

/-- `re.sub(r"(\w+)=", r"'\1':", s)`, fuel-indexed: at each position, if a
maximal non-empty run of word characters is immediately followed by `=`,
the run and the `=` are replaced by `'run':` and scanning resumes after
the `=`; otherwise the scanner advances one character. -/
def pySubF : Nat → List Char → List Char
  | 0, _ => []
  | _ + 1, [] => []
  | f + 1, c :: rest =>
    if isWordChar c then
      match List.dropWhile isWordChar (c :: rest) with
      | '=' :: rest2 =>
        '\'' :: List.takeWhile isWordChar (c :: rest) ++ '\'' :: ':' :: pySubF f rest2
      | _ => c :: pySubF f rest
    else c :: pySubF f rest

/-- The identifier-key rewrite `name=` ↦ `'name':` applied to a whole
file content. -/
def pySub (s : List Char) : List Char := pySubF s.length s

/-- Dict keys: the hashable scalar literals (see the module comment;
tuple and float keys are outside the model). -/
inductive PKey where
  | str : List Char → PKey
  | int : Int → PKey
  | bool : Bool → PKey
  | null : PKey
  deriving DecidableEq

mutual
/-- The in-memory values produced by `ast.literal_eval` (see the module
comment for the modelling restrictions). -/
inductive Value where
  | str : List Char → Value
  | int : Int → Value
  | bool : Bool → Value
  | null : Value
  | list : VList → Value
  | dict : KVList → Value
  | set : VList → Value
  | tuple : VList → Value

/-- A sequence of values (elements of a list, set or tuple literal, in
the syntactic order of the literal). -/
inductive VList where
  | nil : VList
  | cons : Value → VList → VList

/-- Dict entries in insertion order. -/
inductive KVList where
  | nil : KVList
  | cons : PKey → Value → KVList → KVList
end

/-- The dict key denoted by an evaluated key expression: Python hashes
strings, integers, booleans and `None`; a list, dict or set key raises
`TypeError` during evaluation (and a tuple key is outside the model). -/
def keyOf : Value → Option PKey
  | .str s => some (.str s)
  | .int n => some (.int n)
  | .bool b => some (.bool b)
  | .null => some .null
  | _ => none

/-- Python's key equality for dict insertion: `True == 1` and
`False == 0`, so a boolean key and the numerically equal integer key
collide (`{1: 2, True: 3}` evaluates to `{1: 3}`). -/
def pkeySame : PKey → PKey → Bool
  | .str x, .str y => x == y
  | .null, .null => true
  | .int m, .int n => m == n
  | .int m, .bool b => m == (if b then (1 : Int) else 0)
  | .bool a, .int n => (if a then (1 : Int) else 0) == n
  | .bool a, .bool b => a == b
  | _, _ => false

/-- Python dict insertion: a repeated key (under Python's key equality)
overwrites the stored value in place and keeps the first key object, a
fresh key is appended at the end. -/
def kvInsert : KVList → PKey → Value → KVList
  | .nil, k, v => .cons k v .nil
  | .cons k' v' rest, k, v =>
    if pkeySame k' k then .cons k' v rest else .cons k' v' (kvInsert rest k v)

/-- Append a value at the end of a `VList`. -/
def vlSnoc : VList → Value → VList
  | .nil, v => .cons v .nil
  | .cons w xs, v => .cons w (vlSnoc xs v)

/-- Whitespace skipping between tokens. -/
def skipWs (s : List Char) : List Char :=
  s.dropWhile (fun c => c == ' ' || c == '\n' || c == '\t' || c == '\r')

/-- Scan a quoted string body up to the closing quote `q`; per the
modelling restrictions, a backslash, a control character or a non-ASCII
character is rejected. -/
def parseQuoted (q : Char) : List Char → Option (List Char × List Char)
  | [] => none
  | c :: rest =>
    if c == q then some ([], rest)
    else if c == '\\' || c.toNat < 32 || 126 < c.toNat then none
    else match parseQuoted q rest with
      | some (s, r) => some (c :: s, r)
      | none => none

/-- Decimal value of a digit run. -/
def ofDec (ds : List Char) : Nat := ds.foldl (fun a c => 10 * a + (c.toNat - 48)) 0

/-- Parse an unsigned decimal integer literal (Python rejects a leading
zero on a multi-digit literal). -/
def parseNum (s : List Char) : Option (Nat × List Char) :=
  match s.takeWhile Char.isDigit with
  | [] => none
  | d :: ds =>
    if d == '0' && ds ≠ [] then none
    else some (ofDec (d :: ds), s.dropWhile Char.isDigit)

mutual
/-- `ast.literal_eval` on one expression: parse a literal value and
return it with the unconsumed remainder. -/
def parseVal : Nat → List Char → Option (Value × List Char)
  | 0, _ => none
  | f + 1, s =>
    match skipWs s with
    | [] => none
    | c :: rest =>
      if c == '{' then
        match skipWs rest with
        | [] => parseBrace f rest
        | c2 :: r2 => if c2 == '}' then some (.dict .nil, r2) else parseBrace f rest
      else if c == '[' then
        match skipWs rest with
        | [] => parseListLoop f .nil rest
        | c2 :: r2 => if c2 == ']' then some (.list .nil, r2) else parseListLoop f .nil rest
      else if c == '(' then
        match skipWs rest with
        | [] => parseParen f rest
        | c2 :: r2 => if c2 == ')' then some (.tuple .nil, r2) else parseParen f rest
      else if c == '\'' then
        match parseQuoted '\'' rest with
        | some (str, r) => some (.str str, r)
        | none => none
      else if c == '"' then
        match parseQuoted '"' rest with
        | some (str, r) => some (.str str, r)
        | none => none
      else if c == 'T' then
        match rest with
        | 'r' :: 'u' :: 'e' :: r => some (.bool true, r)
        | _ => none
      else if c == 'F' then
        match rest with
        | 'a' :: 'l' :: 's' :: 'e' :: r => some (.bool false, r)
        | _ => none
      else if c == 'N' then
        match rest with
        | 'o' :: 'n' :: 'e' :: r => some (.null, r)
        | _ => none
      else if c == '-' then
        match parseNum rest with
        | some (n, r) => some (.int (-(n : Int)), r)
        | none => none
      else if c == '+' then
        match parseNum rest with
        | some (n, r) => some (.int (n : Int), r)
        | none => none
      else
        match parseNum (c :: rest) with
        | some (n, r) => some (.int (n : Int), r)
        | none => none

/-- A non-empty brace literal: parse the first element, then decide
between a dict (`:` follows, the element must denote a hashable key)
and a set (`,` or `}` follows). -/
def parseBrace : Nat → List Char → Option (Value × List Char)
  | 0, _ => none
  | f + 1, s =>
    match parseVal f s with
    | some (v1, r) =>
      (match skipWs r with
       | [] => none
       | c :: r2 =>
         if c == ':' then
           match keyOf v1 with
           | some k => parseDictAfterKey f .nil k r2
           | none => none
         else if c == ',' then
           match skipWs r2 with
           | [] => parseSetLoop f (.cons v1 .nil) r2
           | c3 :: r3 =>
             if c3 == '}' then some (.set (.cons v1 .nil), r3)
             else parseSetLoop f (.cons v1 .nil) r2
         else if c == '}' then some (.set (.cons v1 .nil), r2)
         else none)
    | none => none

/-- Dict entries after the first key: parse a key expression (which
must denote a hashable key), expect `:`, and continue with
`parseDictAfterKey`. -/
def parseDictLoop : Nat → KVList → List Char → Option (Value × List Char)
  | 0, _, _ => none
  | f + 1, acc, s =>
    match parseVal f s with
    | some (v1, r) =>
      (match keyOf v1 with
       | some k =>
         (match skipWs r with
          | [] => none
          | c :: r2 => if c == ':' then parseDictAfterKey f acc k r2 else none)
       | none => none)
    | none => none

/-- Parse the value of entry `k`, insert it, and then either close the
dict or continue after a comma (Python allows a trailing comma). -/
def parseDictAfterKey : Nat → KVList → PKey → List Char → Option (Value × List Char)
  | 0, _, _, _ => none
  | f + 1, acc, k, s =>
    match parseVal f s with
    | some (v, r) =>
      (match skipWs r with
       | [] => none
       | c :: r2 =>
         if c == ',' then
           match skipWs r2 with
           | [] => parseDictLoop f (kvInsert acc k v) r2
           | c3 :: r3 =>
             if c3 == '}' then some (.dict (kvInsert acc k v), r3)
             else parseDictLoop f (kvInsert acc k v) r2
         else if c == '}' then some (.dict (kvInsert acc k v), r2)
         else none)
    | none => none

/-- Elements of a non-empty set literal after the first element. -/
def parseSetLoop : Nat → VList → List Char → Option (Value × List Char)
  | 0, _, _ => none
  | f + 1, acc, s =>
    match parseVal f s with
    | some (v, r) =>
      (match skipWs r with
       | [] => none
       | c :: r2 =>
         if c == ',' then
           match skipWs r2 with
           | [] => parseSetLoop f (vlSnoc acc v) r2
           | c3 :: r3 =>
             if c3 == '}' then some (.set (vlSnoc acc v), r3)
             else parseSetLoop f (vlSnoc acc v) r2
         else if c == '}' then some (.set (vlSnoc acc v), r2)
         else none)
    | none => none

/-- Elements of a non-empty list literal. -/
def parseListLoop : Nat → VList → List Char → Option (Value × List Char)
  | 0, _, _ => none
  | f + 1, acc, s =>
    match parseVal f s with
    | some (v, r) =>
      (match skipWs r with
       | [] => none
       | c :: r2 =>
         if c == ',' then
           match skipWs r2 with
           | [] => parseListLoop f (vlSnoc acc v) r2
           | c3 :: r3 =>
             if c3 == ']' then some (.list (vlSnoc acc v), r3)
             else parseListLoop f (vlSnoc acc v) r2
         else if c == ']' then some (.list (vlSnoc acc v), r2)
         else none)
    | none => none

/-- A non-empty parenthesized literal: `(e)` is the parenthesized
expression `e` itself, `(e,)` is a one-element tuple, `(e, ...)` is a
longer tuple. -/
def parseParen : Nat → List Char → Option (Value × List Char)
  | 0, _ => none
  | f + 1, s =>
    match parseVal f s with
    | some (v1, r) =>
      (match skipWs r with
       | [] => none
       | c :: r2 =>
         if c == ')' then some (v1, r2)
         else if c == ',' then
           match skipWs r2 with
           | [] => parseTupleLoop f (.cons v1 .nil) r2
           | c3 :: r3 =>
             if c3 == ')' then some (.tuple (.cons v1 .nil), r3)
             else parseTupleLoop f (.cons v1 .nil) r2
         else none)
    | none => none

/-- Elements of a tuple literal after the first comma. -/
def parseTupleLoop : Nat → VList → List Char → Option (Value × List Char)
  | 0, _, _ => none
  | f + 1, acc, s =>
    match parseVal f s with
    | some (v, r) =>
      (match skipWs r with
       | [] => none
       | c :: r2 =>
         if c == ',' then
           match skipWs r2 with
           | [] => parseTupleLoop f (vlSnoc acc v) r2
           | c3 :: r3 =>
             if c3 == ')' then some (.tuple (vlSnoc acc v), r3)
             else parseTupleLoop f (vlSnoc acc v) r2
         else if c == ')' then some (.tuple (vlSnoc acc v), r2)
         else none)
    | none => none
end

/-- `ast.literal_eval(s)`: one expression followed only by whitespace.
The fuel `2 * s.length + 2` dominates the recursion depth, which
consumes at least one character for every two fuel units. -/
def parseLit (s : List Char) : Option Value :=
  match parseVal (2 * s.length + 2) s with
  | some (v, r) => if skipWs r = [] then some v else none
  | none => none

/-!
## `json.dumps`

`json.dumps` with default options: separators `", "` and `": "`, dict
insertion order preserved, `true`/`false`/`null` keywords, strings
double-quoted with `"` and `\` escaped (no other escapes can arise for
the printable-ASCII strings of the model).  Serialization fails (Python
raises `TypeError`) on a set.
-/

/-- The decimal digit of `n < 10`. -/
def digitChar48 (n : Nat) : Char := Char.ofNat (48 + n)

/-- Fuel-indexed decimal rendering of a natural number. -/
def natDecF : Nat → Nat → List Char
  | 0, _ => []
  | f + 1, n =>
    if n < 10 then [digitChar48 n]
    else natDecF f (n / 10) ++ [digitChar48 (n % 10)]

/-- Decimal rendering of a natural number. -/
def natDec (n : Nat) : List Char := natDecF (n + 1) n

/-- Decimal rendering of an integer. -/
def intDec (n : Int) : List Char :=
  if n < 0 then '-' :: natDec n.natAbs else natDec n.toNat

/-- JSON string-body escaping: `"` and `\` get a backslash; all other
characters of the model's strings are printable ASCII and stay as they
are. -/
def escJ : List Char → List Char
  | [] => []
  | c :: rest =>
    if c == '"' || c == '\\' then '\\' :: c :: escJ rest else c :: escJ rest

/-- `json.dumps` coerces every dict key to a string: a string key is
emitted escaped, and an `int`, `bool` or `None` key is emitted as its
JSON spelling inside the quotes. -/
def keyChars : PKey → List Char
  | .str k => escJ k
  | .int n => intDec n
  | .bool true => chars "true"
  | .bool false => chars "false"
  | .null => chars "null"

mutual
/-- `json.dumps(v)`; `none` models the `TypeError` raised on a set.  A
tuple is coerced to a JSON array. -/
def jsonDumps : Value → Option (List Char)
  | .str s => some ('"' :: escJ s ++ '"' :: [])
  | .int n => some (intDec n)
  | .bool true => some (chars "true")
  | .bool false => some (chars "false")
  | .null => some (chars "null")
  | .list xs =>
    (match dumpsVList xs with
     | some parts => some ('[' :: parts ++ ']' :: [])
     | none => none)
  | .dict kvs =>
    (match dumpsKVList kvs with
     | some parts => some ('{' :: parts ++ '}' :: [])
     | none => none)
  | .set _ => none
  | .tuple xs =>
    (match dumpsVList xs with
     | some parts => some ('[' :: parts ++ ']' :: [])
     | none => none)

/-- The comma-separated element renderings of a list. -/
def dumpsVList : VList → Option (List Char)
  | .nil => some []
  | .cons v .nil => jsonDumps v
  | .cons v (VList.cons w xs) =>
    (match jsonDumps v, dumpsVList (VList.cons w xs) with
     | some d, some rest => some (d ++ ',' :: ' ' :: rest)
     | _, _ => none)

/-- The comma-separated `"key": value` renderings of a dict (keys
coerced to strings by `keyChars`). -/
def dumpsKVList : KVList → Option (List Char)
  | .nil => some []
  | .cons k v .nil =>
    (match jsonDumps v with
     | some d => some ('"' :: keyChars k ++ '"' :: ':' :: ' ' :: d)
     | none => none)
  | .cons k v (KVList.cons k2 v2 xs) =>
    (match jsonDumps v, dumpsKVList (KVList.cons k2 v2 xs) with
     | some d, some rest =>
       some ('"' :: keyChars k ++ '"' :: ':' :: ' ' :: d ++ ',' :: ' ' :: rest)
     | _, _ => none)
end

/-!
## `format_json` as a file-state transformer with an effect trace

The file content is the state.  `open(file, "w")` truncates the file at
once; `json.dumps(data)` is evaluated before `f.write` is called, so a
`TypeError` from a non-serializable value strikes after the truncation
and leaves the file empty.
-/

/-- Observable effects of one `format_json` run. -/
inductive Ev where
  | read : Ev
  | printVal : Value → Ev
  | openW : Ev
  | write : List Char → Ev

/-- `format_json(file)` of format.py lines 36-44: returns the effect
trace, the final file content and the outcome (`some v` iff the run
completed, carrying the parsed value). -/
def format_json_run (c : List Char) : List Ev × List Char × Option Value :=
  match parseLit (pySub c) with
  | none => ([Ev.read], c, none)
  | some v =>
    match jsonDumps v with
    | none => ([Ev.read, Ev.printVal v, Ev.openW], [], none)
    | some d => ([Ev.read, Ev.printVal v, Ev.openW, Ev.write d], d, some v)

/-!
## A strict JSON parser (specification side, for the round-trip claims)

Accepts the JSON grammar restricted to the forms `json.dumps` can emit
for model values: objects, arrays, double-quoted strings with `\"` and
`\\` escapes, optionally-negative integers, `true`, `false`, `null`.
-/

/-- JSON string body after the opening quote, unescaping `\"` and `\\`. -/
def jStringBody : List Char → Option (List Char × List Char)
  | [] => none
  | c :: rest =>
    if c == '"' then some ([], rest)
    else if c == '\\' then
      match rest with
      | [] => none
      | c2 :: r2 =>
        if c2 == '"' || c2 == '\\' then
          match jStringBody r2 with
          | some (s, r) => some (c2 :: s, r)
          | none => none
        else none
    else if c.toNat < 32 then none
    else match jStringBody rest with
      | some (s, r) => some (c :: s, r)
      | none => none

mutual
/-- Parse one JSON value, returning it with the remainder. -/
def jParseVal : Nat → List Char → Option (Value × List Char)
  | 0, _ => none
  | f + 1, s =>
    match skipWs s with
    | [] => none
    | c :: rest =>
      if c == '{' then
        match skipWs rest with
        | [] => jParseObjLoop f .nil rest
        | c2 :: r2 => if c2 == '}' then some (.dict .nil, r2) else jParseObjLoop f .nil rest
      else if c == '[' then
        match skipWs rest with
        | [] => jParseArrLoop f .nil rest
        | c2 :: r2 => if c2 == ']' then some (.list .nil, r2) else jParseArrLoop f .nil rest
      else if c == '"' then
        match jStringBody rest with
        | some (str, r) => some (.str str, r)
        | none => none
      else if c == 't' then
        match rest with
        | 'r' :: 'u' :: 'e' :: r => some (.bool true, r)
        | _ => none
      else if c == 'f' then
        match rest with
        | 'a' :: 'l' :: 's' :: 'e' :: r => some (.bool false, r)
        | _ => none
      else if c == 'n' then
        match rest with
        | 'u' :: 'l' :: 'l' :: r => some (.null, r)
        | _ => none
      else if c == '-' then
        match parseNum rest with
        | some (n, r) => some (.int (-(n : Int)), r)
        | none => none
      else
        match parseNum (c :: rest) with
        | some (n, r) => some (.int (n : Int), r)
        | none => none

/-- Members of a non-empty JSON object (no trailing comma). -/
def jParseObjLoop : Nat → KVList → List Char → Option (Value × List Char)
  | 0, _, _ => none
  | f + 1, acc, s =>
    match skipWs s with
    | [] => none
    | c :: rest =>
      if c == '"' then
        match jStringBody rest with
        | some (k, r) =>
          (match skipWs r with
           | [] => none
           | c2 :: r2 =>
             if c2 == ':' then
               match jParseVal f r2 with
               | some (v, r3) =>
                 (match skipWs r3 with
                  | [] => none
                  | c4 :: r4 =>
                    if c4 == ',' then jParseObjLoop f (kvInsert acc (.str k) v) r4
                    else if c4 == '}' then some (.dict (kvInsert acc (.str k) v), r4)
                    else none)
               | none => none
             else none)
        | none => none
      else none

/-- Elements of a non-empty JSON array (no trailing comma). -/
def jParseArrLoop : Nat → VList → List Char → Option (Value × List Char)
  | 0, _, _ => none
  | f + 1, acc, s =>
    match jParseVal f s with
    | some (v, r) =>
      (match skipWs r with
       | [] => none
       | c :: r2 =>
         if c == ',' then jParseArrLoop f (vlSnoc acc v) r2
         else if c == ']' then some (.list (vlSnoc acc v), r2)
         else none)
    | none => none
end

/-- Parse a complete JSON document (one value plus trailing whitespace). -/
def jsonParse (s : List Char) : Option Value :=
  match jParseVal (2 * s.length + 2) s with
  | some (v, r) => if skipWs r = [] then some v else none
  | none => none

/-!
## Well-formed versions files (specification side)

The spec describes the consumed format as "a literal structure using `=`
instead of `:` after bare (unquoted) identifier keys, otherwise following
familiar nested-literal syntax".  `renderValue` produces exactly such a
file for a given structure, and `wfValue` captures the well-formedness
conditions under which the formatter treats it faithfully.
-/

/-- No word character is immediately followed by `=` (so the `(\w+)=`
rewrite cannot fire inside the run). -/
def pairsOk : List Char → Bool
  | [] => true
  | [_] => true
  | a :: b :: rest => !(isWordChar a && b == '=') && pairsOk (b :: rest)

/-- A printable-ASCII string suitable for a double-quoted literal. -/
def strBodyOk (s : List Char) : Bool :=
  s.all (fun c => 32 ≤ c.toNat && c.toNat ≤ 126 && c != '"' && c != '\\')

/-- A bare identifier key: non-empty, word characters only. -/
def keyOk (k : List Char) : Bool := !k.isEmpty && k.all isWordChar

/-- Key lookup in a `KVList`, under Python's key equality. -/
def kvHasKey : KVList → PKey → Bool
  | .nil, _ => false
  | .cons k' _ rest, k => pkeySame k' k || kvHasKey rest k

/-- All dict keys distinct. -/
def kvNodup : KVList → Bool
  | .nil => true
  | .cons k _ rest => !kvHasKey rest k && kvNodup rest

/-- The versions-file spelling of a key: well-formed files use bare
identifier (string) keys only. -/
def renderKey : PKey → List Char
  | .str k => k
  | _ => []

mutual
/-- The versions-file rendering of a structure: scalars in Python literal
form, lists bracketed, mappings braced with `key=value` entries, entries
and elements separated by `", "`. -/
def renderValue : Value → List Char
  | .str s => '"' :: s ++ '"' :: []
  | .int n => intDec n
  | .bool true => chars "True"
  | .bool false => chars "False"
  | .null => chars "None"
  | .list xs => '[' :: renderVList xs ++ ']' :: []
  | .dict kvs => '{' :: renderKVList kvs ++ '}' :: []
  | .set _ => []
  | .tuple _ => []

/-- Comma-space separated element renderings. -/
def renderVList : VList → List Char
  | .nil => []
  | .cons v .nil => renderValue v
  | .cons v (VList.cons w xs) => renderValue v ++ ',' :: ' ' :: renderVList (VList.cons w xs)

/-- Comma-space separated `key=value` entry renderings. -/
def renderKVList : KVList → List Char
  | .nil => []
  | .cons k v .nil => renderKey k ++ '=' :: renderValue v
  | .cons k v (KVList.cons k2 v2 xs) =>
    renderKey k ++ '=' :: renderValue v ++ ',' :: ' ' :: renderKVList (KVList.cons k2 v2 xs)
end

/-- A well-formed versions-file key: a bare (string) identifier. -/
def wfKey : PKey → Bool
  | .str k => keyOk k
  | _ => false

mutual
/-- Well-formedness of a structure for the versions-file syntax: no sets
or tuples, string values printable ASCII without `"`, `\` or an internal
word-character-then-`=` pair, bare string identifier keys, distinct
keys. -/
def wfValue : Value → Bool
  | .str s => strBodyOk s && pairsOk s
  | .int _ => true
  | .bool _ => true
  | .null => true
  | .list xs => wfVList xs
  | .dict kvs => wfKVList kvs && kvNodup kvs
  | .set _ => false
  | .tuple _ => false

/-- All elements well-formed. -/
def wfVList : VList → Bool
  | .nil => true
  | .cons v xs => wfValue v && wfVList xs

/-- All keys bare identifiers and all values well-formed. -/
def wfKVList : KVList → Bool
  | .nil => true
  | .cons k v xs => wfKey k && wfValue v && wfKVList xs
end

mutual
/-- Structural size, for strong induction over `Value`. -/
def vsize : Value → Nat
  | .str _ => 1
  | .int _ => 1
  | .bool _ => 1
  | .null => 1
  | .list xs => 1 + vlsize xs
  | .dict kvs => 1 + kvsize kvs
  | .set xs => 1 + vlsize xs
  | .tuple xs => 1 + vlsize xs

/-- Structural size of a `VList`. -/
def vlsize : VList → Nat
  | .nil => 0
  | .cons v xs => 1 + vsize v + vlsize xs

/-- Structural size of a `KVList`. -/
def kvsize : KVList → Nat
  | .nil => 0
  | .cons _ v xs => 1 + vsize v + kvsize xs
end

/-!
## Serializability invariants (specification side)

`goodValue` holds of every value `parseVal` can produce: all string
payloads and keys are printable ASCII without backslashes, and dict keys
are distinct.  Together with serializability (`jsonDumps` succeeding) it
drives the round-trip theorem.
-/

/-- Characters a parsed string literal can contain. -/
def litCharOk (c : Char) : Bool := 32 ≤ c.toNat && c.toNat ≤ 126 && c != '\\'

/-- Keys the parser can produce: a string key is a clean literal
string. -/
def keyClean : PKey → Bool
  | .str k => k.all litCharOk
  | _ => true

mutual
/-- Invariant of parsed values (see section comment). -/
def goodValue : Value → Bool
  | .str s => s.all litCharOk
  | .int _ => true
  | .bool _ => true
  | .null => true
  | .list xs => goodVList xs
  | .dict kvs => goodKVList kvs && kvNodup kvs
  | .set xs => goodVList xs
  | .tuple xs => goodVList xs

/-- All elements satisfy the invariant. -/
def goodVList : VList → Bool
  | .nil => true
  | .cons v xs => goodValue v && goodVList xs

/-- All keys are clean and all values satisfy the invariant. -/
def goodKVList : KVList → Bool
  | .nil => true
  | .cons k v xs => keyClean k && goodValue v && goodKVList xs
end

/-- A string dict key (one that `json.dumps` emits verbatim rather than
coercing). -/
def isStrKey : PKey → Bool
  | .str _ => true
  | _ => false

mutual
/-- Values on which JSON serialization is faithful: no tuples (coerced
to arrays) and no non-string dict keys (coerced to strings) anywhere. -/
def jsonSafeValue : Value → Bool
  | .str _ => true
  | .int _ => true
  | .bool _ => true
  | .null => true
  | .list xs => jsonSafeVList xs
  | .dict kvs => jsonSafeKVList kvs
  | .set xs => jsonSafeVList xs
  | .tuple _ => false

/-- All elements are JSON-faithful. -/
def jsonSafeVList : VList → Bool
  | .nil => true
  | .cons v xs => jsonSafeValue v && jsonSafeVList xs

/-- All keys are strings and all values are JSON-faithful. -/
def jsonSafeKVList : KVList → Bool
  | .nil => true
  | .cons k v xs => isStrKey k && jsonSafeValue v && jsonSafeKVList xs
end

/-- Concatenation of value sequences. -/
def vlAppend : VList → VList → VList
  | .nil, ys => ys
  | .cons v xs, ys => .cons v (vlAppend xs ys)

/-- Concatenation of entry sequences. -/
def kvAppend : KVList → KVList → KVList
  | .nil, ys => ys
  | .cons k v xs, ys => .cons k v (kvAppend xs ys)

/-- Every key of the second list is absent from the first. -/
def kvFresh (acc : KVList) : KVList → Bool
  | .nil => true
  | .cons k _ rest => !kvHasKey acc k && kvFresh acc rest

/-- The remainder after a serialized number must not begin with a digit
(otherwise the maximal-run number scan would consume it). -/
def headSafe : List Char → Bool
  | [] => true
  | c :: _ => !c.isDigit



/-- A remainder that cannot extend a word run or trigger the `(\w+)=`
rewrite at a chunk boundary: empty, or starting with a character that is
neither a word character nor `=`. -/
def restOk : List Char → Bool
  | [] => true
  | c :: _ => !isWordChar c && !(c == '=')

mutual
/-- The versions-file rendering after the `(\w+)=` rewrite: identical to
`renderValue` except that every `key=` has become `'key':`. -/
def renderValueQ : Value → List Char
  | .str s => '"' :: s ++ '"' :: []
  | .int n => intDec n
  | .bool true => chars "True"
  | .bool false => chars "False"
  | .null => chars "None"
  | .list xs => '[' :: renderVListQ xs ++ ']' :: []
  | .dict kvs => '{' :: renderKVListQ kvs ++ '}' :: []
  | .set _ => []
  | .tuple _ => []

/-- Transformed element renderings. -/
def renderVListQ : VList → List Char
  | .nil => []
  | .cons v .nil => renderValueQ v
  | .cons v (VList.cons w xs) => renderValueQ v ++ ',' :: ' ' :: renderVListQ (VList.cons w xs)

/-- Transformed `'key':value` entry renderings. -/
def renderKVListQ : KVList → List Char
  | .nil => []
  | .cons k v .nil => '\'' :: renderKey k ++ '\'' :: ':' :: renderValueQ v
  | .cons k v (KVList.cons k2 v2 xs) =>
    '\'' :: renderKey k ++ '\'' :: ':' :: renderValueQ v
      ++ ',' :: ' ' :: renderKVListQ (KVList.cons k2 v2 xs)
end

/-- The transformed rendering of a dict from the point just after a
key's `':'`: the key's value, then the remaining entries if any. -/
def renderAfterKeyQ (v : Value) : KVList → List Char
  | .nil => renderValueQ v
  | .cons k2 v2 xs =>
    renderValueQ v ++ ',' :: ' ' :: renderKVListQ (KVList.cons k2 v2 xs)

/-!
## Theorems

Helper lemmas come first; the claim theorems follow, each with a doc
comment naming the claim it settles.
-/

/-- C2: clean-md.py's traversal filter `file_path[-3:] == ".md" or
file_path[-3:] == ".mdx"` can never accept an `.mdx` file, because a
3-character slice is compared with the 4-character string `".mdx"`:
the path `docs/a.mdx` ends in `.mdx` yet is rejected, while format.py's
corrected filter (`file_path[-4:] == ".mdx"`) accepts it.  This refutes
the claim that the traversal visits every file ending in `.mdx`. -/
theorem cleanMd_filter_misses_mdx :
    cleanMd_filter (chars "docs/a.mdx") = false
      ∧ (chars ".mdx").isSuffixOf (chars "docs/a.mdx") = true
      ∧ fmt_filter (chars "docs/a.mdx") = true := by
  decide

/-- C3 counterexample: on the target `a.mdx` the two removal orders
disagree: removing `.md` first (clean-md.py) leaves `ax`, removing
`.mdx` first (format.py) leaves `a`. -/
theorem strip_order_matters :
    cleanMd_strip (chars "a.mdx") = chars "ax"
      ∧ fmt_strip (chars "a.mdx") = chars "a"
      ∧ cleanMd_strip (chars "a.mdx") ≠ fmt_strip (chars "a.mdx") := by
  decide

/-- C1 counterexample: in the file content `[a](.m.mdd)` the link target
`.m.mdd` is rewritable (no `http` prefix, contains `.md`), and both
scripts rewrite the link to `[a](.md)`: deleting the `.md` occurrence
glues `.m` and `d` into a fresh `.md`, so the rewritten target still
contains the substring `.md` instead of having all `.md`/`.mdx`
substrings removed. -/
theorem convert_link_leaves_md :
    startsHttp (chars ".m.mdd") = false
      ∧ hasMdExt (chars ".m.mdd") = true
      ∧ cleanMd_convert_link (chars "[a](.m.mdd)")
          = (chars "[a](.md)", [(chars "[a](.m.mdd)", chars "[a](.md)")])
      ∧ fmt_convert_link (chars "[a](.m.mdd)")
          = (chars "[a](.md)", [(chars "[a](.m.mdd)", chars "[a](.md)")])
      ∧ hasMdExt (chars ".md") = true := by
  decide

/-- C7 counterexample: rewriting `[a](.m.mdd)` once yields `[a](.md)`;
a second pass rewrites this to `[a]()`, so neither script's per-file
rewriting is idempotent. -/
theorem convert_link_not_idempotent :
    (cleanMd_convert_link ((cleanMd_convert_link (chars "[a](.m.mdd)")).1)).1
        ≠ (cleanMd_convert_link (chars "[a](.m.mdd)")).1
      ∧ (fmt_convert_link ((fmt_convert_link (chars "[a](.m.mdd)")).1)).1
        ≠ (fmt_convert_link (chars "[a](.m.mdd)")).1
      ∧ (cleanMd_convert_link ((cleanMd_convert_link (chars "[a](.m.mdd)")).1)).1
        = chars "[a]()" := by
  decide

/-- C4 counterexample: on a tree holding one file `d/a.md` with content
`[x](b.mdx)`, clean-md.py rewrites the target to `bx` while format.py's
markdown mode rewrites it to `b`: final contents and diagnostics both
differ, so the two programs do not implement one and the same behavior. -/
theorem markdown_modes_differ :
    cleanMd_main [(chars "d/a.md", chars "[x](b.mdx)")]
        ≠ fmt_format_markdown [(chars "d/a.md", chars "[x](b.mdx)")]
      ∧ cleanMd_main [(chars "d/a.md", chars "[x](b.mdx)")]
          = ([(chars "d/a.md", chars "[x](bx)")],
             [(chars "[x](b.mdx)", chars "[x](bx)")])
      ∧ fmt_format_markdown [(chars "d/a.md", chars "[x](b.mdx)")]
          = ([(chars "d/a.md", chars "[x](b)")],
             [(chars "[x](b.mdx)", chars "[x](b)")]) :=
  ⟨by decide, by decide, by decide⟩

/-- C5 counterexample: on the spec's scenario content
`{version="1.0", stable=true}` the transform yields
`{'version':"1.0", 'stable':true}`, and `ast.literal_eval` rejects the
bare name `true` (Python's boolean literal is `True`), so `format_json`
fails instead of producing JSON. -/
theorem format_json_rejects_true :
    parseLit (pySub (chars "\x7bversion=\"1.0\", stable=true\x7d")) = none
      ∧ format_json_run (chars "\x7bversion=\"1.0\", stable=true\x7d")
          = ([Ev.read], chars "\x7bversion=\"1.0\", stable=true\x7d", none) :=
  ⟨rfl, rfl⟩

/-- C5 amended: the parse step accepts Python literal structures —
nested mappings/sequences, strings, numbers, and the Python spellings
`True`/`False`/`None` of booleans and null.  For the content
`{version="1.0", stable=True}` the run succeeds and writes JSON
equivalent to `{"version": "1.0", "stable": true}`. -/
theorem format_json_scenario4_python_booleans :
    parseLit (pySub (chars "\x7bversion=\"1.0\", stable=True\x7d"))
        = some (.dict (.cons (.str (chars "version")) (.str (chars "1.0"))
            (.cons (.str (chars "stable")) (.bool true) .nil)))
      ∧ format_json_run (chars "\x7bversion=\"1.0\", stable=True\x7d")
          = ([Ev.read,
              Ev.printVal (.dict (.cons (.str (chars "version")) (.str (chars "1.0"))
                (.cons (.str (chars "stable")) (.bool true) .nil))),
              Ev.openW,
              Ev.write (chars "\x7b\"version\": \"1.0\", \"stable\": true\x7d")],
             chars "\x7b\"version\": \"1.0\", \"stable\": true\x7d",
             some (.dict (.cons (.str (chars "version")) (.str (chars "1.0"))
               (.cons (.str (chars "stable")) (.bool true) .nil)))) :=
  ⟨rfl, rfl⟩

/-- C6 counterexample: the versions-file content `{1, 2}` parses (a
Python set literal), but `json.dumps` raises `TypeError` on a set —
after `open(file, "w")` has already truncated the file.  The run fails
and the file is left empty, not with its original content. -/
theorem format_json_truncates_on_set :
    format_json_run (chars "\x7b1, 2\x7d")
        = ([Ev.read, Ev.printVal (.set (.cons (.int 1) (.cons (.int 2) .nil))),
            Ev.openW], [], none)
      ∧ ([] : List Char) ≠ chars "\x7b1, 2\x7d" :=
  ⟨rfl, by decide⟩

/-- C8 counterexample: in `{note="a=b"}` the `(\w+)=` rewrite also fires
inside the string literal (`a=` becomes `'a':`), so the parsed value of
key `note` is `'a':b` instead of the input string `a=b`: string values
containing `=` preceded by a word character are not preserved. -/
theorem format_json_corrupts_eq_strings :
    parseLit (pySub (chars "\x7bnote=\"a=b\"\x7d"))
        = some (.dict (.cons (.str (chars "note"))
            (.str ('\'' :: 'a' :: '\'' :: ':' :: 'b' :: [])) .nil))
      ∧ ('\'' :: 'a' :: '\'' :: ':' :: 'b' :: []) ≠ chars "a=b" :=
  ⟨rfl, by decide⟩

/-- The rewrite loop of `convert_link`, characterised: the final content
is obtained by folding the global replacement over exactly the rewritable
matches, and the diagnostics list exactly those matches with the label
kept and the target stripped. -/
theorem linkFold_characterization (strip : List Char → List Char) :
    ∀ (L : List (List Char × List Char)) (d : List Char)
      (logs : List (List Char × List Char)),
      L.foldl (linkStep strip) (d, logs)
        = ((L.filter (fun u => !startsHttp u.2 && hasMdExt u.2)).foldl
             (fun dd u => pyReplace dd (wholeLink u.1 u.2) (wholeLink u.1 (strip u.2))) d,
           logs ++ (L.filter (fun u => !startsHttp u.2 && hasMdExt u.2)).map
             (fun u => (wholeLink u.1 u.2, wholeLink u.1 (strip u.2)))) := by
  intro L
  induction L with
  | nil => intro d logs; simp
  | cons u L ih =>
    intro d logs
    by_cases hh : startsHttp u.2 = true
    · simp [linkStep, hh, ih]
    · by_cases he : hasMdExt u.2 = true
      · simp [linkStep, hh, he, ih]
      · simp [linkStep, hh, he, ih]

/-- C1 amended: for every file content, each matched link obeys the
trichotomy: links whose target starts with `http`/`https`, and links
whose target contains neither `.md` nor `.mdx`, contribute no rewrite and
no diagnostic; every other matched link is rewritten by a global
replacement that keeps its label and transforms its target by the
script's two sequential deletions (`.md` then `.mdx` for clean-md.py,
`.mdx` then `.md` for format.py) and is logged accordingly.  (By
`convert_link_leaves_md`, the sequential deletions need not remove every
`.md` substring, which is the sole correction to the claim.) -/
theorem convert_link_trichotomy (content : List Char) :
    cleanMd_convert_link content
      = (((findLinks content).filter (fun u => !startsHttp u.2 && hasMdExt u.2)).foldl
           (fun dd u => pyReplace dd (wholeLink u.1 u.2) (wholeLink u.1 (cleanMd_strip u.2))) content,
         ((findLinks content).filter (fun u => !startsHttp u.2 && hasMdExt u.2)).map
           (fun u => (wholeLink u.1 u.2, wholeLink u.1 (cleanMd_strip u.2))))
    ∧ fmt_convert_link content
      = (((findLinks content).filter (fun u => !startsHttp u.2 && hasMdExt u.2)).foldl
           (fun dd u => pyReplace dd (wholeLink u.1 u.2) (wholeLink u.1 (fmt_strip u.2))) content,
         ((findLinks content).filter (fun u => !startsHttp u.2 && hasMdExt u.2)).map
           (fun u => (wholeLink u.1 u.2, wholeLink u.1 (fmt_strip u.2)))) := by
  constructor
  · rw [cleanMd_convert_link, linkFold_characterization]; simp
  · rw [fmt_convert_link, linkFold_characterization]; simp

/-- If no matched link of a content passes the rewrite guard, the
per-file rewriting leaves it untouched and prints nothing. -/
theorem convert_link_noop (strip : List Char → List Char) (d : List Char)
    (h : ∀ u ∈ findLinks d, startsHttp u.2 = true ∨ hasMdExt u.2 = false) :
    (findLinks d).foldl (linkStep strip) (d, []) = (d, []) := by
  have hfil : (findLinks d).filter (fun u => !startsHttp u.2 && hasMdExt u.2) = [] := by
    apply List.filter_eq_nil_iff.mpr
    intro u hu
    rcases h u hu with h1 | h1 <;> simp [h1]
  rw [linkFold_characterization, hfil]
  simp

/-- C7 amended: applying the per-file rewriting twice yields the same
content as applying it once, provided no link matched in the
once-rewritten content passes the rewrite guard (target with `http`
prefix, or without `.md`/`.mdx`); `convert_link_not_idempotent` shows the
proviso is necessary. -/
theorem convert_link_conditionally_idempotent (c : List Char) :
    ((∀ u ∈ findLinks ((cleanMd_convert_link c).1),
        startsHttp u.2 = true ∨ hasMdExt u.2 = false) →
      (cleanMd_convert_link ((cleanMd_convert_link c).1)).1
        = (cleanMd_convert_link c).1)
    ∧ ((∀ u ∈ findLinks ((fmt_convert_link c).1),
        startsHttp u.2 = true ∨ hasMdExt u.2 = false) →
      (fmt_convert_link ((fmt_convert_link c).1)).1
        = (fmt_convert_link c).1) := by
  constructor
  · intro h
    rw [cleanMd_convert_link, convert_link_noop _ _ h]
  · intro h
    rw [fmt_convert_link, convert_link_noop _ _ h]

/-- Witness for `convert_link_conditionally_idempotent`: the content
`[g](i.md)` is rewritten once to `[g](i)`, whose only link fails the
guard, so the second pass changes nothing. -/
theorem convert_link_conditionally_idempotent_witness :
    (cleanMd_convert_link ((cleanMd_convert_link (chars "[g](i.md)")).1)).1
        = (cleanMd_convert_link (chars "[g](i.md)")).1
      ∧ (fmt_convert_link ((fmt_convert_link (chars "[g](i.md)")).1)).1
        = (fmt_convert_link (chars "[g](i.md)")).1 :=
  ⟨(convert_link_conditionally_idempotent (chars "[g](i.md)")).1 (by decide),
   (convert_link_conditionally_idempotent (chars "[g](i.md)")).2 (by decide)⟩

/-- When every matched target strips identically under the two deletion
orders, the two rewrite loops agree. -/
theorem linkFold_strip_congr :
    ∀ (L : List (List Char × List Char)) (acc : List Char × List (List Char × List Char)),
      (∀ u ∈ L, cleanMd_strip u.2 = fmt_strip u.2) →
      L.foldl (linkStep cleanMd_strip) acc = L.foldl (linkStep fmt_strip) acc := by
  intro L
  induction L with
  | nil => intro acc _; rfl
  | cons u L ih =>
    intro acc h
    have hu : cleanMd_strip u.2 = fmt_strip u.2 := h u (by simp)
    have hrest : ∀ w ∈ L, cleanMd_strip w.2 = fmt_strip w.2 := by
      intro w hw; exact h w (by simp [hw])
    simp only [List.foldl_cons]
    rw [ih _ hrest]
    have : linkStep cleanMd_strip acc u = linkStep fmt_strip acc u := by
      simp [linkStep, hu]
    rw [this]

/-- Per-file agreement of the two `convert_link`s under the
strip-agreement condition. -/
theorem convert_link_congr (c : List Char)
    (h : ∀ u ∈ findLinks c, cleanMd_strip u.2 = fmt_strip u.2) :
    cleanMd_convert_link c = fmt_convert_link c := by
  rw [cleanMd_convert_link, fmt_convert_link, linkFold_strip_congr _ _ h]

/-- C4 amended: format.py's markdown mode and clean-md.py agree on a
tree — same final contents, same diagnostics — whenever (a) every file
path is classified identically by the two filename filters and (b) every
link matched in a file's content strips identically under the two
deletion orders.  `markdown_modes_differ` shows both provisos are needed:
the programs are two variants of the behavior, not one and the same. -/
theorem markdown_modes_agree_conditionally :
    ∀ files : List (List Char × List Char),
      (∀ f ∈ files, cleanMd_filter f.1 = fmt_filter f.1) →
      (∀ f ∈ files, ∀ u ∈ findLinks f.2, cleanMd_strip u.2 = fmt_strip u.2) →
      cleanMd_main files = fmt_format_markdown files := by
  have main : ∀ (files : List (List Char × List Char))
      (acc : List (List Char × List Char) × List (List Char × List Char)),
      (∀ f ∈ files, cleanMd_filter f.1 = fmt_filter f.1) →
      (∀ f ∈ files, ∀ u ∈ findLinks f.2, cleanMd_strip u.2 = fmt_strip u.2) →
      files.foldl
        (fun acc f =>
          if cleanMd_filter f.1 then
            (acc.1 ++ [(f.1, (cleanMd_convert_link f.2).1)], acc.2 ++ (cleanMd_convert_link f.2).2)
          else (acc.1 ++ [f], acc.2)) acc
        = files.foldl
          (fun acc f =>
            if fmt_filter f.1 then
              (acc.1 ++ [(f.1, (fmt_convert_link f.2).1)], acc.2 ++ (fmt_convert_link f.2).2)
            else (acc.1 ++ [f], acc.2)) acc := by
    intro files
    induction files with
    | nil => intro acc _ _; rfl
    | cons f files ih =>
      intro acc hfil hstr
      simp only [List.foldl_cons]
      have h1 : cleanMd_filter f.1 = fmt_filter f.1 := hfil f (by simp)
      have h2 : cleanMd_convert_link f.2 = fmt_convert_link f.2 :=
        convert_link_congr f.2 (hstr f (by simp))
      rw [ih _ (fun g hg => hfil g (by simp [hg])) (fun g hg => hstr g (by simp [hg]))]
      congr 1
      rw [h1, h2]
  intro files hfil hstr
  exact main files ([], []) hfil hstr

/-- Witness for `markdown_modes_agree_conditionally`: a tree with one
file `a.md` containing `[x](c.md)` satisfies both provisos. -/
theorem markdown_modes_agree_witness :
    cleanMd_main [(chars "a.md", chars "[x](c.md)")]
      = fmt_format_markdown [(chars "a.md", chars "[x](c.md)")] :=
  markdown_modes_agree_conditionally _ (by decide) (by decide)

/-- `str.replace` is the identity when the (non-empty) pattern does not
occur in the string. -/
theorem pyReplaceF_not_contains (p : Char) (ps rep : List Char) :
    ∀ (f : Nat) (s : List Char), s.length ≤ f →
      containsStr s (p :: ps) = false → pyReplaceF p ps rep f s = s := by
  intro f
  induction f with
  | zero =>
    intro s hlen _
    have : s = [] := List.length_eq_zero.mp (Nat.le_zero.mp hlen)
    subst this
    rfl
  | succ f ih =>
    intro s hlen hc
    cases s with
    | nil => rfl
    | cons c rest =>
      rw [containsStr] at hc
      have hpre : (p :: ps).isPrefixOf (c :: rest) = false := by
        cases hp : (p :: ps).isPrefixOf (c :: rest) <;> simp [hp] at hc ⊢
      have hrest : containsStr rest (p :: ps) = false := by
        cases hr : containsStr rest (p :: ps) <;> simp [hr, hpre] at hc ⊢
      rw [pyReplaceF, hpre]
      simp only [Bool.false_eq_true, if_false]
      rw [ih rest (by simpa using Nat.le_of_succ_le_succ hlen) hrest]

/-- `pyReplace` is the identity when the pattern does not occur. -/
theorem pyReplace_not_contains (s pat rep : List Char)
    (h : containsStr s pat = false) : pyReplace s pat rep = s := by
  cases pat with
  | nil =>
    exfalso
    cases s with
    | nil => simp [containsStr] at h
    | cons c rest => simp [containsStr, List.isPrefixOf] at h
  | cons p ps => exact pyReplaceF_not_contains p ps rep s.length s (le_refl _) h

/-- C3 amended: the order of the two removals matters in general
(`strip_order_matters`), but the two orders agree on every target `t`
such that `.mdx` occurs neither in `t` nor in `t` with its `.md`
occurrences deleted: there both reduce to deleting the `.md`
occurrences. -/
theorem strip_orders_agree_without_mdx (t : List Char)
    (h1 : containsStr t (chars ".mdx") = false)
    (h2 : containsStr (pyReplace t (chars ".md") []) (chars ".mdx") = false) :
    cleanMd_strip t = fmt_strip t := by
  rw [cleanMd_strip, fmt_strip, pyReplace_not_contains _ _ _ h2,
    pyReplace_not_contains _ _ _ h1]

/-- Witness for `strip_orders_agree_without_mdx` at `t = "a.md"`. -/
theorem strip_orders_agree_witness :
    containsStr (chars "a.md") (chars ".mdx") = false
      ∧ cleanMd_strip (chars "a.md") = fmt_strip (chars "a.md") :=
  ⟨by decide, strip_orders_agree_without_mdx (chars "a.md") (by decide) (by decide)⟩

/-- C6 amended: the write discipline of `format_json`.  A failing run
never reaches `f.write`; a parse failure happens before the file is even
opened for writing, leaving it unchanged; a completed run ends with the
write of the serialized JSON as its last effect; but when the parsed
value is not JSON-serializable, the failure strikes after the truncating
`open(file, "w")` and the file is left empty
(`format_json_truncates_on_set`), which is the sole correction to the
claimed all-or-nothing dichotomy. -/
theorem format_json_write_discipline (c : List Char) :
    ((format_json_run c).2.2 = none → ∀ d, Ev.write d ∉ (format_json_run c).1)
    ∧ (parseLit (pySub c) = none →
        (format_json_run c).2.1 = c ∧ Ev.openW ∉ (format_json_run c).1)
    ∧ (∀ v, (format_json_run c).2.2 = some v →
        ∃ d, jsonDumps v = some d ∧ (format_json_run c).2.1 = d
          ∧ (format_json_run c).1.getLast? = some (Ev.write d))
    ∧ (∀ v, parseLit (pySub c) = some v → jsonDumps v = none →
        (format_json_run c).2.1 = [] ∧ Ev.openW ∈ (format_json_run c).1) := by
  unfold format_json_run
  cases hp : parseLit (pySub c) with
  | none =>
    refine ⟨?_, ?_, ?_, ?_⟩
    · intro _ d; simp
    · intro _; simp
    · intro v hv; simp at hv
    · intro v hv; cases hv
  | some v =>
    dsimp only
    cases hd : jsonDumps v with
    | none =>
      refine ⟨?_, ?_, ?_, ?_⟩
      · intro _ d; simp
      · intro hpn; cases hpn
      · intro w hw; simp at hw
      · intro w hw _
        cases hw
        simp
    | some d =>
      refine ⟨?_, ?_, ?_, ?_⟩
      · intro hnone; simp at hnone
      · intro hpn; cases hpn
      · intro w hw
        simp at hw
        subst hw
        exact ⟨d, hd, rfl, by simp⟩
      · intro w hw hwd
        cases hw
        rw [hd] at hwd
        cases hwd


/-- Witness for `format_json_write_discipline`: a completed run on
`{a=1}` ends with the write of the serialized JSON. -/
theorem format_json_write_discipline_witness :
    ∃ d, jsonDumps (.dict (.cons (.str ('a' :: [])) (.int 1) .nil)) = some d
      ∧ (format_json_run (chars "\x7ba=1\x7d")).2.1 = d
      ∧ (format_json_run (chars "\x7ba=1\x7d")).1.getLast? = some (Ev.write d) :=
  (format_json_write_discipline (chars "\x7ba=1\x7d")).2.2.1
    (.dict (.cons (.str ('a' :: [])) (.int 1) .nil)) rfl

/-- Every successful `matchLink` splits its input as
`label ++ "](" ++ target ++ ")" ++ rest` with a newline-free label and a
target free of `)` and newlines — the target is the shortest run between
`](` and the first following `)`. -/
theorem matchLink_decomp :
    ∀ s lab t r, matchLink s = some (lab, t, r) →
      s = lab ++ ']' :: '(' :: (t ++ ')' :: r)
        ∧ t.all (fun c => c != ')' && c != '\n') = true
        ∧ lab.all (fun c => c != '\n') = true := by
  have hts : ∀ s t r, findTargetSplit s = some (t, r) →
      s = t ++ ')' :: r ∧ t.all (fun c => c != ')' && c != '\n') = true := by
    intro s
    induction s with
    | nil => intro t r h; simp [findTargetSplit] at h
    | cons c rest ih =>
      intro t r h
      rw [findTargetSplit] at h
      by_cases hc : c == ')'
      · rw [if_pos hc] at h
        cases h
        refine ⟨by simp [eq_of_beq hc], by simp⟩
      · rw [if_neg hc] at h
        by_cases hn : c == '\n'
        · rw [if_pos hn] at h; cases h
        · rw [if_neg hn] at h
          cases hfs : findTargetSplit rest with
          | none => rw [hfs] at h; cases h
          | some p =>
            obtain ⟨t0, r0⟩ := p
            rw [hfs] at h
            simp only [Option.some.injEq, Prod.mk.injEq] at h
            obtain ⟨h1, h2⟩ := h
            subst h1
            subst h2
            obtain ⟨hdec, hall⟩ := ih t0 r0 hfs
            refine ⟨by simp [hdec], ?_⟩
            simp only [List.all_cons, hall, Bool.and_true]
            simp only [Bool.and_eq_true, bne_iff_ne]
            exact ⟨by simpa using hc, by simpa using hn⟩
  intro s
  induction s with
  | nil => intro lab t r h; simp [matchLink] at h
  | cons c rest ih =>
    intro lab t r h
    rw [matchLink.eq_def] at h
    dsimp only at h
    by_cases hn : c == '\n'
    · rw [if_pos hn] at h; cases h
    · rw [if_neg hn] at h
      have hext : ∀ lab t r, labelExtend c (matchLink rest) = some (lab, t, r) →
          (c :: rest) = lab ++ ']' :: '(' :: (t ++ ')' :: r)
            ∧ t.all (fun c => c != ')' && c != '\n') = true
            ∧ lab.all (fun c => c != '\n') = true := by
        intro lab t r hle
        cases hml : matchLink rest with
        | none => rw [hml] at hle; cases hle
        | some trip =>
          rw [hml] at hle
          obtain ⟨lab0, t0, r0⟩ := trip
          rw [labelExtend] at hle
          simp only [Option.some.injEq, Prod.mk.injEq] at hle
          obtain ⟨h1, h2, h3⟩ := hle
          subst h1
          subst h2
          subst h3
          obtain ⟨hdec, hallt, halll⟩ := ih lab0 t0 r0 hml
          refine ⟨by simp [hdec], hallt, ?_⟩
          simp only [List.all_cons, halll, Bool.and_true, bne_iff_ne]
          simpa using hn
      by_cases hb : c == ']'
      · rw [if_pos hb] at h
        cases rest with
        | nil => exact hext lab t r h
        | cons c2 rest2 =>
          dsimp only at h
          by_cases hp : c2 == '('
          · rw [if_pos hp] at h
            cases hfs : findTargetSplit rest2 with
            | none => rw [hfs] at h; exact hext lab t r h
            | some p =>
              rw [hfs] at h
              obtain ⟨t0, r0⟩ := p
              simp only [Option.some.injEq, Prod.mk.injEq] at h
              obtain ⟨h1, h2, h3⟩ := h
              subst h1
              subst h2
              subst h3
              obtain ⟨hdec, hall⟩ := hts rest2 t0 r0 hfs
              refine ⟨?_, hall, by simp⟩
              simp [eq_of_beq hb, eq_of_beq hp, hdec]
          · rw [if_neg hp] at h
            exact hext lab t r h
      · rw [if_neg hb] at h
        exact hext lab t r h

/-- C10: the link matcher's target is non-greedy: every successful match
decomposes its input as `label ++ "](" ++ target ++ ")" ++ rest` where
the target contains no `)` — it is the shortest character run between
`](` and the first following `)`.  Consequently, in `[a](dir(x)/b.md)`
only the prefix `dir(x` before the first `)` is matched as the target;
it fails the `.md`/`.mdx` test, so the content is left unchanged with no
diagnostics and the trailing `)/b.md)` stays outside the link. -/
theorem link_target_nongreedy :
    (∀ s lab t r, matchLink s = some (lab, t, r) →
      s = lab ++ ']' :: '(' :: (t ++ ')' :: r)
        ∧ t.all (fun c => c != ')' && c != '\n') = true)
    ∧ findLinks (chars "[a](dir(x)/b.md)") = [(chars "a", chars "dir(x")]
    ∧ hasMdExt (chars "dir(x") = false
    ∧ cleanMd_convert_link (chars "[a](dir(x)/b.md)")
        = (chars "[a](dir(x)/b.md)", [])
    ∧ fmt_convert_link (chars "[a](dir(x)/b.md)")
        = (chars "[a](dir(x)/b.md)", []) :=
  ⟨fun s lab t r h =>
    ⟨(matchLink_decomp s lab t r h).1, (matchLink_decomp s lab t r h).2.1⟩,
   by decide, by decide, by decide, by decide⟩

/-- Witness for `link_target_nongreedy`: the decomposition at the
concrete input `lbl](tg)xyz`. -/
theorem link_target_nongreedy_witness :
    chars "lbl](tg)xyz"
        = chars "lbl" ++ ']' :: '(' :: (chars "tg" ++ ')' :: chars "xyz")
      ∧ (chars "tg").all (fun c => c != ')' && c != '\n') = true :=
  link_target_nongreedy.1 (chars "lbl](tg)xyz") (chars "lbl") (chars "tg")
    (chars "xyz") rfl

/-- If `P` holds of `c` but not of `x`, then `c` and `x` differ. -/
theorem beq_false_of_pred {P : Char → Bool} {c x : Char}
    (hc : P c = true) (hx : P x = false) : (c == x) = false := by
  cases h : c == x
  · rfl
  · exfalso
    rw [eq_of_beq h, hx] at hc
    exact Bool.false_ne_true hc

/-- Word characters are printable ASCII. -/
theorem wordChar_range (c : Char) (h : isWordChar c = true) :
    32 ≤ c.toNat ∧ c.toNat ≤ 126 := by
  rw [isWordChar, Bool.or_eq_true] at h
  rcases h with h | h
  · rw [Char.isAlphanum, Bool.or_eq_true] at h
    rcases h with h | h
    · rw [Char.isAlpha, Bool.or_eq_true] at h
      rcases h with h | h
      · simp only [Char.isUpper, Bool.and_eq_true, decide_eq_true_eq] at h
        obtain ⟨h1, h2⟩ := h
        have e1 : (65 : Nat) ≤ c.toNat := h1
        have e2 : c.toNat ≤ (90 : Nat) := h2
        omega
      · simp only [Char.isLower, Bool.and_eq_true, decide_eq_true_eq] at h
        obtain ⟨h1, h2⟩ := h
        have e1 : (97 : Nat) ≤ c.toNat := h1
        have e2 : c.toNat ≤ (122 : Nat) := h2
        omega
    · simp only [Char.isDigit, Bool.and_eq_true, decide_eq_true_eq] at h
      obtain ⟨h1, h2⟩ := h
      have e1 : (48 : Nat) ≤ c.toNat := h1
      have e2 : c.toNat ≤ (57 : Nat) := h2
      omega
  · rw [eq_of_beq h]
    decide

/-- Digits are in the ASCII range 48–57. -/
theorem digit_range (c : Char) (h : c.isDigit = true) :
    48 ≤ c.toNat ∧ c.toNat ≤ 57 := by
  simp only [Char.isDigit, Bool.and_eq_true, decide_eq_true_eq] at h
  obtain ⟨h1, h2⟩ := h
  exact ⟨h1, h2⟩

/-- A character failing the whitespace test starts the `skipWs` result. -/
theorem skipWs_cons_nonws {c : Char} (l : List Char)
    (h : (c == ' ' || c == '\n' || c == '\t' || c == '\r') = false) :
    skipWs (c :: l) = c :: l := by
  rw [skipWs, List.dropWhile_cons, h]
  simp

/-- `skipWs` drops a leading space. -/
theorem skipWs_cons_space (l : List Char) : skipWs (' ' :: l) = skipWs l := by
  rw [skipWs, List.dropWhile_cons]
  simp [skipWs]

/-- Characters other than the four whitespace characters are not skipped;
companion fact for predicates. -/
theorem nonws_of_pred {P : Char → Bool} {c : Char} (hc : P c = true)
    (h1 : P ' ' = false) (h2 : P '\n' = false) (h3 : P '\t' = false)
    (h4 : P '\r' = false) :
    (c == ' ' || c == '\n' || c == '\t' || c == '\r') = false := by
  rw [beq_false_of_pred hc h1, beq_false_of_pred hc h2,
    beq_false_of_pred hc h3, beq_false_of_pred hc h4]
  rfl

/-- `takeWhile`/`dropWhile` split an append at the first failing head. -/
theorem takeWhile_app (p : Char → Bool) :
    ∀ (A rest : List Char), A.all p = true →
      (∀ c, rest.head? = some c → p c = false) →
      (A ++ rest).takeWhile p = A ∧ (A ++ rest).dropWhile p = rest := by
  intro A
  induction A with
  | nil =>
    intro rest _ hrest
    cases rest with
    | nil => exact ⟨rfl, rfl⟩
    | cons c l =>
      have := hrest c rfl
      simp only [List.nil_append, List.takeWhile_cons, List.dropWhile_cons, this]
      exact ⟨rfl, rfl⟩
  | cons a A ih =>
    intro rest hall hrest
    rw [List.all_cons, Bool.and_eq_true] at hall
    obtain ⟨ha, hA⟩ := hall
    obtain ⟨ht, hd⟩ := ih rest hA hrest
    simp only [List.cons_append, List.takeWhile_cons, List.dropWhile_cons, ha]
    simp only [ht, hd]
    exact ⟨rfl, rfl⟩

/-- The digit of `d < 10` is a digit character. -/
theorem digitChar48_isDigit {d : Nat} (h : d < 10) :
    (digitChar48 d).isDigit = true := by
  interval_cases d <;> decide

/-- Code of the digit character. -/
theorem digitChar48_toNat {d : Nat} (h : d < 10) :
    (digitChar48 d).toNat = 48 + d := by
  interval_cases d <;> decide

/-- The digit character is `'0'` exactly for zero. -/
theorem digitChar48_eq_zero {d : Nat} (h : d < 10) :
    (digitChar48 d == '0') = decide (d = 0) := by
  interval_cases d <;> decide

/-- `natDecF` yields a non-empty digit string. -/
theorem natDecF_spec : ∀ f n, n < f →
    natDecF f n ≠ [] ∧ (natDecF f n).all Char.isDigit = true := by
  intro f
  induction f with
  | zero => intro n h; omega
  | succ f ih =>
    intro n h
    rw [natDecF]
    by_cases h10 : n < 10
    · simp [h10, digitChar48_isDigit h10]
    · have hdiv : n / 10 < f := by
        have h1 : n / 10 < n := Nat.div_lt_self (by omega) (by omega)
        omega
      obtain ⟨hne, hall⟩ := ih (n / 10) hdiv
      rw [if_neg h10]
      constructor
      · intro hc
        exact hne (List.append_eq_nil.mp hc).1
      · rw [List.all_append, hall]
        simp [digitChar48_isDigit (Nat.mod_lt n (by omega))]

/-- Reading back one appended digit. -/
theorem ofDec_append (ds : List Char) (c : Char) :
    ofDec (ds ++ [c]) = 10 * ofDec ds + (c.toNat - 48) := by
  rw [ofDec, ofDec, List.foldl_append]
  rfl

/-- `ofDec` inverts `natDecF`. -/
theorem ofDec_natDecF : ∀ f n, n < f → ofDec (natDecF f n) = n := by
  intro f
  induction f with
  | zero => intro n h; omega
  | succ f ih =>
    intro n h
    rw [natDecF]
    by_cases h10 : n < 10
    · rw [if_pos h10]
      show ofDec [digitChar48 n] = n
      rw [ofDec]
      simp [digitChar48_toNat h10]
    · have hdiv : n / 10 < f := by
        have h1 : n / 10 < n := Nat.div_lt_self (by omega) (by omega)
        omega
      rw [if_neg h10, ofDec_append, ih (n / 10) hdiv,
        digitChar48_toNat (Nat.mod_lt n (by omega))]
      omega

/-- The leading digit of a positive number is not `'0'`. -/
theorem natDecF_head_ne_zero : ∀ f n, n < f → 1 ≤ n →
    ∀ d ds, natDecF f n = d :: ds → (d == '0') = false := by
  intro f
  induction f with
  | zero => intro n h; omega
  | succ f ih =>
    intro n h h1 d ds hd
    rw [natDecF] at hd
    by_cases h10 : n < 10
    · rw [if_pos h10] at hd
      cases hd
      rw [digitChar48_eq_zero h10]
      simp
      omega
    · have hdiv : n / 10 < f := by
        have hx : n / 10 < n := Nat.div_lt_self (by omega) (by omega)
        omega
      rw [if_neg h10] at hd
      obtain ⟨hne, _⟩ := natDecF_spec f (n / 10) hdiv
      cases hh : natDecF f (n / 10) with
      | nil => exact absurd hh hne
      | cons d0 ds0 =>
        rw [hh] at hd
        have hd0 : d = d0 := by
          have := hd
          simp at this
          exact this.1.symm
        subst hd0
        exact ih (n / 10) hdiv (by omega) d ds0 hh

/-- Parsing the decimal rendering of `n` consumes exactly it. -/
theorem parseNum_natDec (n : Nat) (rest : List Char) (h : headSafe rest = true) :
    parseNum (natDec n ++ rest) = some (n, rest) := by
  have hn : n < n + 1 := Nat.lt_succ_self n
  obtain ⟨hne, hall⟩ := natDecF_spec (n + 1) n hn
  have hhead : ∀ c, rest.head? = some c → c.isDigit = false := by
    intro c hc
    cases rest with
    | nil => cases hc
    | cons c0 l =>
      rw [List.head?_cons, Option.some.injEq] at hc
      subst hc
      rw [headSafe] at h
      cases hdg : c0.isDigit
      · rfl
      · rw [hdg] at h; cases h
  obtain ⟨ht, hd⟩ := takeWhile_app Char.isDigit (natDec n) rest hall hhead
  rw [parseNum, ht, hd]
  cases hds : natDec n with
  | nil => exact absurd hds hne
  | cons d ds =>
    dsimp only
    by_cases h0 : n = 0
    · subst h0
      have : natDec 0 = ['0'] := by decide
      rw [this] at hds
      cases hds
      simp [ofDec]
    · have hz : (d == '0') = false :=
        natDecF_head_ne_zero (n + 1) n hn (by omega) d ds hds
      rw [hz]
      simp only [Bool.false_and, Bool.false_eq_true, if_false]
      rw [← hds, show natDec n = natDecF (n + 1) n from rfl,
        ofDec_natDecF (n + 1) n hn]

/-- The body a quoted-string scan returns satisfies the parsed-string
character invariant. -/
theorem parseQuoted_good (q : Char) : ∀ s body r,
    parseQuoted q s = some (body, r) → body.all litCharOk = true := by
  intro s
  induction s with
  | nil => intro body r h; cases h
  | cons c rest ih =>
    intro body r h
    rw [parseQuoted] at h
    by_cases hq : c == q
    · rw [if_pos hq] at h
      cases h
      rfl
    · rw [if_neg hq] at h
      by_cases hbad : (c == '\\' || decide (c.toNat < 32) || decide (126 < c.toNat)) = true
      · rw [if_pos hbad] at h; cases h
      · rw [if_neg hbad] at h
        cases hrec : parseQuoted q rest with
        | none => rw [hrec] at h; cases h
        | some p =>
          obtain ⟨b0, r0⟩ := p
          rw [hrec] at h
          simp only [Option.some.injEq, Prod.mk.injEq] at h
          obtain ⟨h1, h2⟩ := h
          subst h1
          subst h2
          rw [List.all_cons, ih b0 r0 hrec, Bool.and_true, litCharOk]
          simp only [Bool.or_eq_true, not_or, Bool.not_eq_true] at hbad
          obtain ⟨⟨hb1, hb2⟩, hb3⟩ := hbad
          simp only [Bool.and_eq_true, bne_iff_ne]
          refine ⟨⟨by simpa using hb2, by simpa using hb3⟩, ?_⟩
          intro hcc
          rw [hcc] at hb1
          exact absurd hb1 (by decide)

/-- Scanning a clean body against its closing quote. -/
theorem parseQuoted_app (q : Char) : ∀ (body rest : List Char),
    body.all (fun c => !(c == q) && litCharOk c) = true →
    parseQuoted q (body ++ q :: rest) = some (body, rest) := by
  intro body
  induction body with
  | nil =>
    intro rest _
    rw [List.nil_append, parseQuoted]
    simp
  | cons c b ih =>
    intro rest hall
    rw [List.all_cons, Bool.and_eq_true] at hall
    obtain ⟨hc, hb⟩ := hall
    rw [Bool.and_eq_true] at hc
    obtain ⟨hneq, hok⟩ := hc
    rw [litCharOk] at hok
    simp only [Bool.and_eq_true, bne_iff_ne, decide_eq_true_eq] at hok
    obtain ⟨⟨h32, h126⟩, hbs⟩ := hok
    rw [List.cons_append, parseQuoted]
    rw [if_neg (by simpa using hneq)]
    have hbad : (c == '\\' || decide (c.toNat < 32) || decide (126 < c.toNat)) = false := by
      have h1 : (c == '\\') = false := by
        cases hx : c == '\\'
        · rfl
        · exact absurd (eq_of_beq hx) hbs
      rw [h1]
      simp
      omega
    rw [hbad]
    simp only [Bool.false_eq_true, if_false]
    rw [ih rest hb]

/-- Structural induction for `VList` (the mutual recursor has several
motives, so the plain `induction` tactic cannot be used directly). -/
theorem vlist_ind (motive : VList → Prop) (hnil : motive VList.nil)
    (hcons : ∀ v rest, motive rest → motive (VList.cons v rest)) : ∀ l, motive l
  | .nil => hnil
  | .cons v rest => hcons v rest (vlist_ind motive hnil hcons rest)

/-- Structural induction for `KVList`. -/
theorem kvlist_ind (motive : KVList → Prop) (hnil : motive KVList.nil)
    (hcons : ∀ k v rest, motive rest → motive (KVList.cons k v rest)) : ∀ l, motive l
  | .nil => hnil
  | .cons k v rest => hcons k v rest (kvlist_ind motive hnil hcons rest)

/-- Unescaping inverts JSON string-body escaping against the closing
quote. -/
theorem jStringBody_escJ : ∀ (body rest : List Char),
    body.all (fun c => 32 ≤ c.toNat) = true →
    jStringBody (escJ body ++ '"' :: rest) = some (body, rest) := by
  intro body
  induction body with
  | nil =>
    intro rest _
    rw [escJ, List.nil_append, jStringBody.eq_def]
    dsimp only
    simp
  | cons c b ih =>
    intro rest hall
    rw [List.all_cons, Bool.and_eq_true] at hall
    obtain ⟨hc, hb⟩ := hall
    rw [escJ]
    by_cases hesc : (c == '"' || c == '\\') = true
    · rw [if_pos hesc, List.cons_append, List.cons_append, jStringBody.eq_def]
      dsimp only
      rw [if_neg (by decide), if_pos (by decide)]
      rw [if_pos hesc, ih rest hb]
    · rw [if_neg hesc, List.cons_append, jStringBody.eq_def]
      dsimp only
      simp only [Bool.or_eq_true, not_or, Bool.not_eq_true] at hesc
      obtain ⟨h1, h2⟩ := hesc
      rw [if_neg (by simp [h1]), if_neg (by simp [h2])]
      rw [if_neg (by simp only [decide_eq_true_eq] at hc ⊢; omega)]
      rw [ih rest hb]

/-- Python key equality is reflexive. -/
theorem pkeySame_refl (k : PKey) : pkeySame k k = true := by
  cases k <;> simp [pkeySame]

/-- Python key equality is symmetric. -/
theorem pkeySame_symm (a b : PKey) : pkeySame a b = pkeySame b a := by
  cases a <;> cases b <;> simp [pkeySame, beq_iff_eq, eq_comm]

/-- Keys equal under Python key equality collide with the same keys. -/
theorem pkeySame_trans (a b : PKey) (h : pkeySame a b = true) :
    ∀ c, pkeySame a c = pkeySame b c := by
  intro c
  cases a with
  | str x =>
    cases b with
    | str y => rw [pkeySame] at h; rw [eq_of_beq h]
    | int n => exact Bool.noConfusion h
    | bool b2 => exact Bool.noConfusion h
    | null => exact Bool.noConfusion h
  | int m =>
    cases b with
    | str y => exact Bool.noConfusion h
    | int n => rw [pkeySame] at h; rw [eq_of_beq h]
    | bool b2 =>
      rw [pkeySame] at h
      have hm := eq_of_beq h
      subst hm
      cases c with
      | str y => rfl
      | int p => rfl
      | bool c2 => cases b2 <;> cases c2 <;> rfl
      | null => rfl
    | null => exact Bool.noConfusion h
  | bool a2 =>
    cases b with
    | str y => exact Bool.noConfusion h
    | int n =>
      rw [pkeySame] at h
      have hm := eq_of_beq h
      subst hm
      cases c with
      | str y => rfl
      | int p => rfl
      | bool c2 => cases a2 <;> cases c2 <;> rfl
      | null => rfl
    | bool b2 => rw [pkeySame] at h; rw [eq_of_beq h]
    | null => exact Bool.noConfusion h
  | null =>
    cases b with
    | str y => exact Bool.noConfusion h
    | int n => exact Bool.noConfusion h
    | bool b2 => exact Bool.noConfusion h
    | null => rfl

/-- Looking a key up after a Python dict insertion. -/
theorem kvHasKey_insert (acc : KVList) (k k2 : PKey) (v : Value) :
    kvHasKey (kvInsert acc k v) k2 = (kvHasKey acc k2 || pkeySame k k2) := by
  induction acc using kvlist_ind with
  | hnil => rw [kvInsert, kvHasKey, kvHasKey, kvHasKey]; simp
  | hcons k' v' rest ih =>
    rw [kvInsert]
    by_cases he : pkeySame k' k = true
    · rw [if_pos he, kvHasKey, kvHasKey, pkeySame_trans k' k he k2]
      cases hx : pkeySame k k2 <;> simp [hx]
    · rw [if_neg he, kvHasKey, kvHasKey, ih]
      simp [Bool.or_assoc]

/-- Python dict insertion preserves key distinctness. -/
theorem kvNodup_insert (acc : KVList) (k : PKey) (v : Value)
    (h : kvNodup acc = true) : kvNodup (kvInsert acc k v) = true := by
  induction acc using kvlist_ind with
  | hnil => rw [kvInsert, kvNodup, kvHasKey, kvNodup]; rfl
  | hcons k' v' rest ih =>
    rw [kvNodup, Bool.and_eq_true] at h
    obtain ⟨hfr, hnd⟩ := h
    rw [kvInsert]
    by_cases he : pkeySame k' k = true
    · rw [if_pos he, kvNodup, hfr, hnd]
      rfl
    · rw [if_neg he, kvNodup, kvHasKey_insert, ih hnd, Bool.and_true]
      have hfr2 : kvHasKey rest k' = false := by simpa using hfr
      have hkk : pkeySame k k' = false := by
        rw [pkeySame_symm]
        cases hx : pkeySame k' k
        · rfl
        · exact absurd hx he
      rw [hfr2, hkk]
      rfl

/-- Inserting a fresh key appends the entry at the end. -/
theorem kvInsert_fresh (acc : KVList) (k : PKey) (v : Value)
    (h : kvHasKey acc k = false) :
    kvInsert acc k v = kvAppend acc (.cons k v .nil) := by
  induction acc using kvlist_ind with
  | hnil => rfl
  | hcons k' v' rest ih =>
    rw [kvHasKey, Bool.or_eq_false_iff] at h
    obtain ⟨h1, h2⟩ := h
    rw [kvInsert, kvAppend, if_neg (by rw [h1]; exact Bool.false_ne_true)]
    rw [ih h2]

/-- Appending a single entry then a tail is appending the entry-headed
tail. -/
theorem kvAppend_snoc (acc : KVList) (k : PKey) (v : Value) (ys : KVList) :
    kvAppend (kvAppend acc (.cons k v .nil)) ys = kvAppend acc (.cons k v ys) := by
  induction acc using kvlist_ind with
  | hnil => rfl
  | hcons k' v' rest ih => rw [kvAppend, kvAppend, kvAppend, ih]

/-- Snoc as an append of a singleton. -/
theorem vlSnoc_eq_append (acc : VList) (v : Value) :
    vlSnoc acc v = vlAppend acc (.cons v .nil) := by
  induction acc using vlist_ind with
  | hnil => rfl
  | hcons w xs ih => rw [vlSnoc, vlAppend, ih]

/-- Appending a singleton then a tail. -/
theorem vlAppend_snoc (acc : VList) (v : Value) (ys : VList) :
    vlAppend (vlAppend acc (.cons v .nil)) ys = vlAppend acc (.cons v ys) := by
  induction acc using vlist_ind with
  | hnil => rfl
  | hcons w xs ih => rw [vlAppend, vlAppend, vlAppend, ih]

/-- `parseVal` only looks at its input through `skipWs`. -/
theorem parseVal_congr (f : Nat) (s1 s2 : List Char)
    (h : skipWs s1 = skipWs s2) : parseVal f s1 = parseVal f s2 := by
  cases f with
  | zero => rfl
  | succ f => rw [parseVal, parseVal, h]

/-- `parseDictLoop` only looks at its input through `skipWs`. -/
theorem parseDictLoop_congr (f : Nat) (acc : KVList) (s1 s2 : List Char)
    (h : skipWs s1 = skipWs s2) :
    parseDictLoop f acc s1 = parseDictLoop f acc s2 := by
  cases f with
  | zero => rfl
  | succ f => rw [parseDictLoop, parseDictLoop, parseVal_congr f s1 s2 h]

/-- `parseListLoop` only looks at its input through `skipWs`. -/
theorem parseListLoop_congr (f : Nat) (acc : VList) (s1 s2 : List Char)
    (h : skipWs s1 = skipWs s2) :
    parseListLoop f acc s1 = parseListLoop f acc s2 := by
  cases f with
  | zero => rfl
  | succ f => rw [parseListLoop, parseListLoop, parseVal_congr f s1 s2 h]

/-- `jParseVal` only looks at its input through `skipWs`. -/
theorem jParseVal_congr (f : Nat) (s1 s2 : List Char)
    (h : skipWs s1 = skipWs s2) : jParseVal f s1 = jParseVal f s2 := by
  cases f with
  | zero => rfl
  | succ f => rw [jParseVal, jParseVal, h]

/-- `jParseObjLoop` only looks at its input through `skipWs`. -/
theorem jParseObjLoop_congr (f : Nat) (acc : KVList) (s1 s2 : List Char)
    (h : skipWs s1 = skipWs s2) :
    jParseObjLoop f acc s1 = jParseObjLoop f acc s2 := by
  cases f with
  | zero => rfl
  | succ f => rw [jParseObjLoop, jParseObjLoop, h]

/-- `jParseArrLoop` only looks at its input through `skipWs`. -/
theorem jParseArrLoop_congr (f : Nat) (acc : VList) (s1 s2 : List Char)
    (h : skipWs s1 = skipWs s2) :
    jParseArrLoop f acc s1 = jParseArrLoop f acc s2 := by
  cases f with
  | zero => rfl
  | succ f => rw [jParseArrLoop, jParseArrLoop, jParseVal_congr f s1 s2 h]

/-- A key produced by `keyOf` from a clean value is clean. -/
theorem keyOf_clean (v : Value) (k : PKey) (hv : goodValue v = true)
    (h : keyOf v = some k) : keyClean k = true := by
  cases v with
  | str s =>
    rw [keyOf, Option.some.injEq] at h
    subst h
    rw [keyClean]
    rw [goodValue] at hv
    exact hv
  | int n =>
    rw [keyOf, Option.some.injEq] at h
    subst h
    rfl
  | bool b =>
    rw [keyOf, Option.some.injEq] at h
    subst h
    rfl
  | null =>
    rw [keyOf, Option.some.injEq] at h
    subst h
    rfl
  | list xs => simp [keyOf] at h
  | dict kvs => simp [keyOf] at h
  | set xs => simp [keyOf] at h
  | tuple xs => simp [keyOf] at h

set_option maxHeartbeats 1600000 in
/-- Well-formedness invariant of every value the literal parser can
produce: string payloads and string dict keys are printable ASCII
without backslashes, and dict keys are distinct. -/
theorem parse_good : ∀ f : Nat,
    (∀ s v r, parseVal f s = some (v, r) → goodValue v = true)
    ∧ (∀ s v r, parseBrace f s = some (v, r) → goodValue v = true)
    ∧ (∀ acc s v r, goodKVList acc = true → kvNodup acc = true →
        parseDictLoop f acc s = some (v, r) → goodValue v = true)
    ∧ (∀ acc k s v r, goodKVList acc = true → kvNodup acc = true →
        keyClean k = true →
        parseDictAfterKey f acc k s = some (v, r) → goodValue v = true)
    ∧ (∀ acc s v r, goodVList acc = true → parseSetLoop f acc s = some (v, r) → goodValue v = true)
    ∧ (∀ acc s v r, goodVList acc = true → parseListLoop f acc s = some (v, r) → goodValue v = true)
    ∧ (∀ s v r, parseParen f s = some (v, r) → goodValue v = true)
    ∧ (∀ acc s v r, goodVList acc = true → parseTupleLoop f acc s = some (v, r) → goodValue v = true) := by
  intro f
  induction f with
  | zero =>
    refine ⟨?_, ?_, ?_, ?_, ?_, ?_, ?_, ?_⟩
    · intro s v r h; cases h
    · intro s v r h; cases h
    · intro acc s v r _ _ h; cases h
    · intro acc k s v r _ _ _ h; cases h
    · intro acc s v r _ h; cases h
    · intro acc s v r _ h; cases h
    · intro s v r h; cases h
    · intro acc s v r _ h; cases h
  | succ f ih =>
    obtain ⟨ihV, ihB, ihD, ihA, ihS, ihL, ihP, ihT⟩ := ih
    have hGoodIns : ∀ acc k v, goodKVList acc = true → keyClean k = true →
        goodValue v = true → goodKVList (kvInsert acc k v) = true := by
      intro acc k v hacc hk hv
      induction acc using kvlist_ind with
      | hnil => rw [kvInsert, goodKVList, hk, hv, goodKVList]; rfl
      | hcons k' v' rest ih2 =>
        rw [goodKVList, Bool.and_eq_true, Bool.and_eq_true] at hacc
        obtain ⟨⟨h1, h2⟩, h3⟩ := hacc
        rw [kvInsert]
        by_cases he : pkeySame k' k = true
        · rw [if_pos he, goodKVList, h1, hv, h3]
          rfl
        · rw [if_neg he, goodKVList, h1, h2, ih2 h3]
          rfl
    have hGoodSnoc : ∀ acc v, goodVList acc = true → goodValue v = true →
        goodVList (vlSnoc acc v) = true := by
      intro acc v hacc hv
      induction acc using vlist_ind with
      | hnil => rw [vlSnoc, goodVList, hv, goodVList]; rfl
      | hcons w xs ih2 =>
        rw [goodVList, Bool.and_eq_true] at hacc
        obtain ⟨h1, h2⟩ := hacc
        rw [vlSnoc, goodVList, h1, ih2 h2]
        rfl
    have hV : ∀ s v r, parseVal (f + 1) s = some (v, r) → goodValue v = true := by
      intro s v r h
      rw [parseVal] at h
      split at h
      · cases h
      · split at h
        · split at h
          · exact ihB _ _ _ h
          · split at h
            · cases h; rfl
            · exact ihB _ _ _ h
        · split at h
          · split at h
            · exact ihL _ _ _ _ (by rfl) h
            · split at h
              · cases h; rfl
              · exact ihL _ _ _ _ (by rfl) h
          · split at h
            · split at h
              · exact ihP _ _ _ h
              · split at h
                · cases h; rfl
                · exact ihP _ _ _ h
            · split at h
              · split at h
                · rename_i body r0 heq
                  cases h
                  exact parseQuoted_good _ _ _ _ heq
                · cases h
              · split at h
                · split at h
                  · rename_i body r0 heq
                    cases h
                    exact parseQuoted_good _ _ _ _ heq
                  · cases h
                · split at h
                  · split at h
                    · cases h; rfl
                    · cases h
                  · split at h
                    · split at h
                      · cases h; rfl
                      · cases h
                    · split at h
                      · split at h
                        · cases h; rfl
                        · cases h
                      · split at h
                        · split at h
                          · cases h; rfl
                          · cases h
                        · split at h
                          · split at h
                            · cases h; rfl
                            · cases h
                          · split at h
                            · cases h; rfl
                            · cases h
    have hB : ∀ s v r, parseBrace (f + 1) s = some (v, r) → goodValue v = true := by
      intro s v r h
      rw [parseBrace] at h
      split at h
      · rename_i v1 r0 heq
        have hv1 : goodValue v1 = true := ihV _ _ _ heq
        split at h
        · cases h
        · rename_i c r2 heq2
          split at h
          · split at h
            · rename_i k0 hkeq
              exact ihA _ _ _ _ _ (by rfl) (by rfl) (keyOf_clean v1 k0 hv1 hkeq) h
            · cases h
          · split at h
            · split at h
              · exact ihS _ _ _ _ (by simp [goodVList, hv1]) h
              · rename_i c3 r3 heq3
                split at h
                · cases h
                  simp [goodValue, goodVList, hv1]
                · exact ihS _ _ _ _ (by simp [goodVList, hv1]) h
            · split at h
              · cases h
                simp [goodValue, goodVList, hv1]
              · cases h
      · cases h
    have hD : ∀ acc s v r, goodKVList acc = true → kvNodup acc = true →
        parseDictLoop (f + 1) acc s = some (v, r) → goodValue v = true := by
      intro acc s v r hacc hnd h
      rw [parseDictLoop] at h
      split at h
      · rename_i v1 r0 heq
        have hv1 : goodValue v1 = true := ihV _ _ _ heq
        split at h
        · rename_i k0 hkeq
          split at h
          · cases h
          · rename_i c r2 heq2
            split at h
            · exact ihA _ _ _ _ _ hacc hnd (keyOf_clean v1 k0 hv1 hkeq) h
            · cases h
        · cases h
      · cases h
    have hA : ∀ acc k s v r, goodKVList acc = true → kvNodup acc = true →
        keyClean k = true →
        parseDictAfterKey (f + 1) acc k s = some (v, r) → goodValue v = true := by
      intro acc k s v r hacc hnd hk h
      rw [parseDictAfterKey] at h
      split at h
      · rename_i v0 r0 heq
        have hv0 : goodValue v0 = true := ihV _ _ _ heq
        have hins : goodKVList (kvInsert acc k v0) = true := hGoodIns acc k v0 hacc hk hv0
        have hind : kvNodup (kvInsert acc k v0) = true := kvNodup_insert acc k v0 hnd
        split at h
        · cases h
        · rename_i c r2 heq2
          split at h
          · split at h
            · exact ihD _ _ _ _ hins hind h
            · rename_i c3 r3 heq3
              split at h
              · cases h
                simp [goodValue, hins, hind]
              · exact ihD _ _ _ _ hins hind h
          · split at h
            · cases h
              simp [goodValue, hins, hind]
            · cases h
      · cases h
    have hS : ∀ acc s v r, goodVList acc = true →
        parseSetLoop (f + 1) acc s = some (v, r) → goodValue v = true := by
      intro acc s v r hacc h
      rw [parseSetLoop] at h
      split at h
      · rename_i v0 r0 heq
        have hv0 : goodValue v0 = true := ihV _ _ _ heq
        have hsn : goodVList (vlSnoc acc v0) = true := hGoodSnoc acc v0 hacc hv0
        split at h
        · cases h
        · rename_i c r2 heq2
          split at h
          · split at h
            · exact ihS _ _ _ _ hsn h
            · rename_i c3 r3 heq3
              split at h
              · cases h
                simp [goodValue, hsn]
              · exact ihS _ _ _ _ hsn h
          · split at h
            · cases h
              simp [goodValue, hsn]
            · cases h
      · cases h
    have hL : ∀ acc s v r, goodVList acc = true →
        parseListLoop (f + 1) acc s = some (v, r) → goodValue v = true := by
      intro acc s v r hacc h
      rw [parseListLoop] at h
      split at h
      · rename_i v0 r0 heq
        have hv0 : goodValue v0 = true := ihV _ _ _ heq
        have hsn : goodVList (vlSnoc acc v0) = true := hGoodSnoc acc v0 hacc hv0
        split at h
        · cases h
        · rename_i c r2 heq2
          split at h
          · split at h
            · exact ihL _ _ _ _ hsn h
            · rename_i c3 r3 heq3
              split at h
              · cases h
                simp [goodValue, hsn]
              · exact ihL _ _ _ _ hsn h
          · split at h
            · cases h
              simp [goodValue, hsn]
            · cases h
      · cases h
    have hT : ∀ acc s v r, goodVList acc = true →
        parseTupleLoop (f + 1) acc s = some (v, r) → goodValue v = true := by
      intro acc s v r hacc h
      rw [parseTupleLoop] at h
      split at h
      · rename_i v0 r0 heq
        have hv0 : goodValue v0 = true := ihV _ _ _ heq
        have hsn : goodVList (vlSnoc acc v0) = true := hGoodSnoc acc v0 hacc hv0
        split at h
        · cases h
        · rename_i c r2 heq2
          split at h
          · split at h
            · exact ihT _ _ _ _ hsn h
            · rename_i c3 r3 heq3
              split at h
              · cases h
                simp [goodValue, hsn]
              · exact ihT _ _ _ _ hsn h
          · split at h
            · cases h
              simp [goodValue, hsn]
            · cases h
      · cases h
    have hP : ∀ s v r, parseParen (f + 1) s = some (v, r) → goodValue v = true := by
      intro s v r h
      rw [parseParen] at h
      split at h
      · rename_i v1 r0 heq
        have hv1 : goodValue v1 = true := ihV _ _ _ heq
        split at h
        · cases h
        · rename_i c r2 heq2
          split at h
          · cases h
            exact hv1
          · split at h
            · split at h
              · exact ihT _ _ _ _ (by simp [goodVList, hv1]) h
              · rename_i c3 r3 heq3
                split at h
                · cases h
                  simp [goodValue, goodVList, hv1]
                · exact ihT _ _ _ _ (by simp [goodVList, hv1]) h
            · cases h
      · cases h
    exact ⟨hV, hB, hD, hA, hS, hL, hP, hT⟩

/-- Weakening a `List.all` fact pointwise. -/
theorem all_weaken {P Q : Char → Bool} (h : ∀ c, P c = true → Q c = true) :
    ∀ l : List Char, l.all P = true → l.all Q = true := by
  intro l hl
  rw [List.all_eq_true] at hl ⊢
  exact fun c hc => h c (hl c hc)

/-- Clean literal characters are at least ASCII 32. -/
theorem litCharOk_ge32 (c : Char) (h : litCharOk c = true) : 32 ≤ c.toNat := by
  rw [litCharOk] at h
  simp only [Bool.and_eq_true, decide_eq_true_eq] at h
  exact h.1.1

/-- Every value has positive size. -/
theorem vsize_pos : ∀ v : Value, 1 ≤ vsize v := by
  intro v
  cases v <;> rw [vsize] <;> omega

/-- Nothing is a key of the empty dict. -/
theorem kvFresh_nil : ∀ kvs : KVList, kvFresh .nil kvs = true := by
  intro kvs
  induction kvs using kvlist_ind with
  | hnil => rfl
  | hcons k v rest ih => rw [kvFresh, kvHasKey, ih]; rfl

/-- A serialized value is non-empty and starts with a character that is
not whitespace and closes no bracket. -/
theorem dumps_head (v : Value) (d : List Char) (h : jsonDumps v = some d) :
    ∃ c X, d = c :: X
      ∧ (c == ' ' || c == '\n' || c == '\t' || c == '\r') = false
      ∧ (c == ']') = false ∧ (c == '}') = false := by
  cases v with
  | str s =>
    rw [jsonDumps, Option.some.injEq] at h
    exact ⟨'"', _, h.symm, by decide, by decide, by decide⟩
  | int n =>
    rw [jsonDumps, Option.some.injEq] at h
    rw [intDec] at h
    by_cases hn : n < 0
    · rw [if_pos hn] at h
      exact ⟨'-', _, h.symm, by decide, by decide, by decide⟩
    · rw [if_neg hn, natDec] at h
      have hlt : n.toNat < n.toNat + 1 := Nat.lt_succ_self _
      obtain ⟨hne, hall⟩ := natDecF_spec (n.toNat + 1) n.toNat hlt
      cases hd : natDecF (n.toNat + 1) n.toNat with
      | nil => exact absurd hd hne
      | cons c X =>
        rw [hd] at h
        have hdig : c.isDigit = true := by
          rw [hd, List.all_cons, Bool.and_eq_true] at hall
          exact hall.1
        refine ⟨c, X, h.symm, ?_, ?_, ?_⟩
        · exact nonws_of_pred hdig (by decide) (by decide) (by decide) (by decide)
        · exact beq_false_of_pred hdig (by decide)
        · exact beq_false_of_pred hdig (by decide)
  | bool b =>
    cases b <;> rw [jsonDumps, Option.some.injEq] at h
    · exact ⟨'f', _, h.symm, by decide, by decide, by decide⟩
    · exact ⟨'t', _, h.symm, by decide, by decide, by decide⟩
  | null =>
    rw [jsonDumps, Option.some.injEq] at h
    exact ⟨'n', _, h.symm, by decide, by decide, by decide⟩
  | list xs =>
    rw [jsonDumps] at h
    cases hx : dumpsVList xs with
    | none => rw [hx] at h; cases h
    | some parts =>
      rw [hx, Option.some.injEq] at h
      exact ⟨'[', _, h.symm, by decide, by decide, by decide⟩
  | dict kvs =>
    rw [jsonDumps] at h
    cases hx : dumpsKVList kvs with
    | none => rw [hx] at h; cases h
    | some parts =>
      rw [hx, Option.some.injEq] at h
      exact ⟨'{', _, h.symm, by decide, by decide, by decide⟩
  | set xs => rw [jsonDumps] at h; cases h
  | tuple xs =>
    rw [jsonDumps] at h
    cases hx : dumpsVList xs with
    | none => rw [hx] at h; cases h
    | some parts =>
      rw [hx, Option.some.injEq] at h
      exact ⟨'[', _, h.symm, by decide, by decide, by decide⟩

/-- Key lookup after appending a single entry. -/
theorem kvHasKey_append_single (acc : KVList) (k k2 : PKey) (v : Value) :
    kvHasKey (kvAppend acc (.cons k v .nil)) k2 = (kvHasKey acc k2 || pkeySame k k2) := by
  induction acc using kvlist_ind with
  | hnil =>
    rw [kvAppend, kvHasKey, kvHasKey, kvHasKey, Bool.or_false, Bool.false_or]
  | hcons k' v' rest ih =>
    rw [kvAppend, kvHasKey, kvHasKey, ih]
    simp [Bool.or_assoc]

/-- Freshness is preserved when the consumed head entry is appended to
the accumulator. -/
theorem kvFresh_step (acc : KVList) (k : PKey) (v : Value) (tail : KVList)
    (hf : kvFresh acc (.cons k v tail) = true)
    (hnd : kvNodup (.cons k v tail) = true) :
    kvFresh (kvAppend acc (.cons k v .nil)) tail = true := by
  rw [kvFresh, Bool.and_eq_true] at hf
  obtain ⟨hk, htail⟩ := hf
  rw [kvNodup, Bool.and_eq_true] at hnd
  obtain ⟨hkt, hndt⟩ := hnd
  have hkt2 : kvHasKey tail k = false := by simpa using hkt
  clear hndt hk hkt
  induction tail using kvlist_ind with
  | hnil => rfl
  | hcons k2 v2 rest ih =>
    rw [kvFresh, Bool.and_eq_true] at htail
    obtain ⟨hk2, hrest⟩ := htail
    rw [kvHasKey, Bool.or_eq_false_iff] at hkt2
    obtain ⟨hne, hkr⟩ := hkt2
    rw [kvFresh, kvHasKey_append_single, ih hrest hkr, Bool.and_true]
    simp only [Bool.not_eq_true']
    rw [Bool.or_eq_false_iff]
    refine ⟨by simpa using hk2, ?_⟩
    rw [pkeySame_symm]
    simpa using hne

/-- One-step evaluation of the JSON parser on a leading quote. -/
theorem jParseVal_quote (g : Nat) (X : List Char) :
    jParseVal (g + 1) ('"' :: X)
      = (match jStringBody X with
         | some (str, r) => some (.str str, r)
         | none => none) := rfl

/-- One-step evaluation on a leading minus sign. -/
theorem jParseVal_minus (g : Nat) (X : List Char) :
    jParseVal (g + 1) ('-' :: X)
      = (match parseNum X with
         | some (n, r) => some (.int (-(n : Int)), r)
         | none => none) := rfl

/-- One-step evaluation on the `true` keyword. -/
theorem jParseVal_true_lit (g : Nat) (rest : List Char) :
    jParseVal (g + 1) ('t' :: 'r' :: 'u' :: 'e' :: rest) = some (.bool true, rest) := rfl

/-- One-step evaluation on the `false` keyword. -/
theorem jParseVal_false_lit (g : Nat) (rest : List Char) :
    jParseVal (g + 1) ('f' :: 'a' :: 'l' :: 's' :: 'e' :: rest) = some (.bool false, rest) := rfl

/-- One-step evaluation on the `null` keyword. -/
theorem jParseVal_null_lit (g : Nat) (rest : List Char) :
    jParseVal (g + 1) ('n' :: 'u' :: 'l' :: 'l' :: rest) = some (.null, rest) := rfl

/-- One-step evaluation on a leading `[`. -/
theorem jParseVal_lbrack (g : Nat) (X : List Char) :
    jParseVal (g + 1) ('[' :: X)
      = (match skipWs X with
         | [] => jParseArrLoop g .nil X
         | c2 :: r2 => if c2 == ']' then some (.list .nil, r2) else jParseArrLoop g .nil X) := rfl

/-- One-step evaluation on a leading `{`. -/
theorem jParseVal_lbrace (g : Nat) (X : List Char) :
    jParseVal (g + 1) ('{' :: X)
      = (match skipWs X with
         | [] => jParseObjLoop g .nil X
         | c2 :: r2 => if c2 == '}' then some (.dict .nil, r2) else jParseObjLoop g .nil X) := rfl

/-- One-step evaluation of the object-member loop on a leading quote. -/
theorem jParseObjLoop_quote (g : Nat) (acc : KVList) (X : List Char) :
    jParseObjLoop (g + 1) acc ('"' :: X)
      = (match jStringBody X with
         | some (k, r) =>
           (match skipWs r with
            | [] => none
            | c2 :: r2 =>
              if c2 == ':' then
                match jParseVal g r2 with
                | some (v, r3) =>
                  (match skipWs r3 with
                   | [] => none
                   | c4 :: r4 =>
                     if c4 == ',' then jParseObjLoop g (kvInsert acc (.str k) v) r4
                     else if c4 == '}' then some (.dict (kvInsert acc (.str k) v), r4)
                     else none)
                | none => none
              else none)
         | none => none) := rfl

/-- One-step evaluation of the JSON parser on a digit head. -/
theorem jParseVal_digit (g : Nat) (c : Char) (X : List Char) (hd : c.isDigit = true) :
    jParseVal (g + 1) (c :: X)
      = (match parseNum (c :: X) with
         | some (n, r) => some (.int (n : Int), r)
         | none => none) := by
  rw [jParseVal,
    skipWs_cons_nonws _ (nonws_of_pred hd (by decide) (by decide) (by decide) (by decide))]
  dsimp only
  rw [beq_false_of_pred (x := '{') hd (by decide),
    beq_false_of_pred (x := '[') hd (by decide),
    beq_false_of_pred (x := '"') hd (by decide),
    beq_false_of_pred (x := 't') hd (by decide),
    beq_false_of_pred (x := 'f') hd (by decide),
    beq_false_of_pred (x := 'n') hd (by decide),
    beq_false_of_pred (x := '-') hd (by decide)]
  simp only [Bool.false_eq_true, if_false]

/-- The serialization of a non-empty value sequence starts with a value
head: non-whitespace and not a closing bracket. -/
theorem dumpsVList_head (w : Value) (ys : VList) (parts : List Char)
    (h : dumpsVList (.cons w ys) = some parts) :
    ∃ c X, parts = c :: X
      ∧ (c == ' ' || c == '\n' || c == '\t' || c == '\r') = false
      ∧ (c == ']') = false ∧ (c == '}') = false := by
  cases ys with
  | nil =>
    rw [dumpsVList] at h
    exact dumps_head w parts h
  | cons w0 xs0 =>
    rw [dumpsVList] at h
    cases hw : jsonDumps w with
    | none => rw [hw] at h; cases h
    | some dv =>
      rw [hw] at h
      cases hrest : dumpsVList (VList.cons w0 xs0) with
      | none => rw [hrest] at h; cases h
      | some tailtxt =>
        rw [hrest, Option.some.injEq] at h
        obtain ⟨c, X, hd, h1, h2, h3⟩ := dumps_head w dv hw
        refine ⟨c, X ++ ',' :: ' ' :: tailtxt, ?_, h1, h2, h3⟩
        rw [← h, hd]
        simp

/-- Parsing inverts serialization: a serialized good value, followed by
any digit-free remainder, parses back to exactly that value (stated
together with the invariants for the array and object member loops). -/
theorem jparse_roundtrip : ∀ N : Nat,
    (∀ v, vsize v ≤ N → goodValue v = true → jsonSafeValue v = true →
      ∀ d, jsonDumps v = some d →
      ∀ rest f, headSafe rest = true → 2 * (d ++ rest).length + 2 ≤ f →
        jParseVal f (d ++ rest) = some (v, rest))
    ∧ (∀ xs, vlsize xs ≤ N → xs ≠ VList.nil → goodVList xs = true →
        jsonSafeVList xs = true → ∀ txt, dumpsVList xs = some txt →
        ∀ acc rest f, 2 * (txt ++ ']' :: rest).length + 3 ≤ f →
          jParseArrLoop f acc (txt ++ ']' :: rest) = some (.list (vlAppend acc xs), rest))
    ∧ (∀ kvs, kvsize kvs ≤ N → kvs ≠ KVList.nil → goodKVList kvs = true →
        jsonSafeKVList kvs = true →
        kvNodup kvs = true → ∀ txt, dumpsKVList kvs = some txt →
        ∀ acc, kvFresh acc kvs = true →
        ∀ rest f, 2 * (txt ++ '}' :: rest).length + 3 ≤ f →
          jParseObjLoop f acc (txt ++ '}' :: rest) = some (.dict (kvAppend acc kvs), rest)) := by
  intro N
  induction N using Nat.strong_induction_on with
  | _ N IH =>
  refine ⟨?_, ?_, ?_⟩
  · -- values
    intro v hsz hgood hjs d hdump rest f hsafe hfuel
    obtain ⟨g, rfl⟩ : ∃ g, f = g + 1 := by
      cases f with
      | zero => exact absurd hfuel (by omega)
      | succ g => exact ⟨g, rfl⟩
    cases v with
    | str s =>
      rw [jsonDumps, Option.some.injEq] at hdump
      subst hdump
      have harr : ('"' :: escJ s ++ '"' :: []) ++ rest = '"' :: (escJ s ++ '"' :: rest) := by
        simp
      rw [harr, jParseVal_quote]
      rw [goodValue] at hgood
      rw [jStringBody_escJ s rest
        (all_weaken (fun c hc => decide_eq_true (litCharOk_ge32 c hc)) s hgood)]
    | int n =>
      rw [jsonDumps, Option.some.injEq] at hdump
      subst hdump
      rw [intDec]
      by_cases hn : n < 0
      · rw [if_pos hn]
        have harr : ('-' :: natDec n.natAbs) ++ rest = '-' :: (natDec n.natAbs ++ rest) := rfl
        rw [harr, jParseVal_minus, parseNum_natDec _ _ hsafe]
        dsimp only
        have he : -((n.natAbs : Int)) = n := by omega
        rw [he]
      · rw [if_neg hn]
        have hlt : n.toNat < n.toNat + 1 := Nat.lt_succ_self _
        obtain ⟨hne, hall⟩ := natDecF_spec _ _ hlt
        rw [natDec]
        cases hd : natDecF (n.toNat + 1) n.toNat with
        | nil => exact absurd hd hne
        | cons c X =>
          have hdig : c.isDigit = true := by
            rw [hd, List.all_cons, Bool.and_eq_true] at hall
            exact hall.1
          rw [List.cons_append, jParseVal_digit g c _ hdig,
            ← List.cons_append, ← hd, ← natDec, parseNum_natDec _ _ hsafe]
          dsimp only
          have he : ((n.toNat : Nat) : Int) = n := Int.toNat_of_nonneg (by omega)
          rw [he]
    | bool b =>
      cases b
      · rw [jsonDumps, Option.some.injEq] at hdump
        subst hdump
        have harr : chars "false" ++ rest = 'f' :: 'a' :: 'l' :: 's' :: 'e' :: rest := rfl
        rw [harr, jParseVal_false_lit]
      · rw [jsonDumps, Option.some.injEq] at hdump
        subst hdump
        have harr : chars "true" ++ rest = 't' :: 'r' :: 'u' :: 'e' :: rest := rfl
        rw [harr, jParseVal_true_lit]
    | null =>
      rw [jsonDumps, Option.some.injEq] at hdump
      subst hdump
      have harr : chars "null" ++ rest = 'n' :: 'u' :: 'l' :: 'l' :: rest := rfl
      rw [harr, jParseVal_null_lit]
    | set xs => rw [jsonDumps] at hdump; cases hdump
    | tuple xs => simp [jsonSafeValue] at hjs
    | list xs =>
      rw [jsonDumps] at hdump
      cases hx : dumpsVList xs with
      | none => rw [hx] at hdump; cases hdump
      | some parts =>
        rw [hx, Option.some.injEq] at hdump
        subst hdump
        have harr : ('[' :: parts ++ ']' :: []) ++ rest = '[' :: (parts ++ ']' :: rest) := by
          simp
        rw [harr, jParseVal_lbrack]
        cases xs with
        | nil =>
          rw [dumpsVList, Option.some.injEq] at hx
          subst hx
          rw [List.nil_append, skipWs_cons_nonws _ (by decide)]
          dsimp only
          rw [if_pos (by decide)]
        | cons w ys =>
          obtain ⟨c, X, hp, hnws, hnb, _⟩ := dumpsVList_head w ys parts hx
          rw [hp, List.cons_append, skipWs_cons_nonws _ hnws]
          dsimp only
          rw [hnb]
          simp only [Bool.false_eq_true, if_false]
          rw [← List.cons_append, ← hp]
          rw [vsize] at hsz
          have hN1 : N - 1 < N := by
            have := vsize_pos (.list (VList.cons w ys))
            rw [vsize] at this
            omega
          have harr2 := (IH (N - 1) hN1).2.1 (VList.cons w ys) (by omega)
            (by intro hc; cases hc) (by rw [goodValue] at hgood; exact hgood)
            (by rw [jsonSafeValue] at hjs; exact hjs)
            parts hx VList.nil rest g (by
              simp only [List.length_append, List.length_cons] at hfuel ⊢
              omega)
          rw [harr2]
          rfl
    | dict kvs =>
      rw [jsonDumps] at hdump
      cases hx : dumpsKVList kvs with
      | none => rw [hx] at hdump; cases hdump
      | some parts =>
        rw [hx, Option.some.injEq] at hdump
        subst hdump
        have harr : ('{' :: parts ++ '}' :: []) ++ rest = '{' :: (parts ++ '}' :: rest) := by
          simp
        rw [harr, jParseVal_lbrace]
        rw [goodValue, Bool.and_eq_true] at hgood
        obtain ⟨hgkv, hnd⟩ := hgood
        cases kvs with
        | nil =>
          rw [dumpsKVList, Option.some.injEq] at hx
          subst hx
          rw [List.nil_append, skipWs_cons_nonws _ (by decide)]
          dsimp only
          rw [if_pos (by decide)]
        | cons k w ys =>
          have hp : ∃ X, parts = '"' :: X := by
            cases ys with
            | nil =>
              rw [dumpsKVList] at hx
              cases hw : jsonDumps w with
              | none => rw [hw] at hx; cases hx
              | some dw =>
                rw [hw, Option.some.injEq] at hx
                exact ⟨_, hx.symm⟩
            | cons k2 w2 ys2 =>
              rw [dumpsKVList] at hx
              cases hw : jsonDumps w with
              | none => rw [hw] at hx; cases hx
              | some dw =>
                rw [hw] at hx
                cases hr : dumpsKVList (KVList.cons k2 w2 ys2) with
                | none => rw [hr] at hx; cases hx
                | some tl =>
                  rw [hr, Option.some.injEq] at hx
                  exact ⟨_, hx.symm⟩
          obtain ⟨X, hp⟩ := hp
          rw [hp, List.cons_append, skipWs_cons_nonws _ (by decide)]
          dsimp only
          rw [if_neg (by decide)]
          rw [← List.cons_append, ← hp]
          rw [vsize] at hsz
          have hN1 : N - 1 < N := by
            have := vsize_pos (.dict (KVList.cons k w ys))
            rw [vsize] at this
            omega
          have harr2 := (IH (N - 1) hN1).2.2 (KVList.cons k w ys) (by omega)
            (by intro hc; cases hc) hgkv
            (by rw [jsonSafeValue] at hjs; exact hjs)
            hnd parts hx KVList.nil (kvFresh_nil _)
            rest g (by
              simp only [List.length_append, List.length_cons] at hfuel ⊢
              omega)
          rw [harr2]
          rfl
  · -- array members
    intro xs hsz hnen hgood hjs txt hdump acc rest f hfuel
    obtain ⟨g, rfl⟩ : ∃ g, f = g + 1 := by
      cases f with
      | zero => exact absurd hfuel (by omega)
      | succ g => exact ⟨g, rfl⟩
    cases xs with
    | nil => exact absurd rfl hnen
    | cons w ys =>
      rw [goodVList, Bool.and_eq_true] at hgood
      obtain ⟨hgw, hgys⟩ := hgood
      rw [jsonSafeVList, Bool.and_eq_true] at hjs
      obtain ⟨hjw, hjys⟩ := hjs
      rw [vlsize] at hsz
      have hwpos := vsize_pos w
      have hN1 : N - 1 < N := by omega
      cases ys with
      | nil =>
        rw [dumpsVList] at hdump
        rw [jParseArrLoop]
        have hval := (IH (N - 1) hN1).1 w (by omega) hgw hjw txt hdump (']' :: rest) g
          rfl
          (by simp only [List.length_append, List.length_cons] at hfuel ⊢; omega)
        rw [hval]
        dsimp only
        rw [skipWs_cons_nonws _ (by decide)]
        dsimp only
        rw [if_neg (by decide), if_pos (by decide), vlSnoc_eq_append]
      | cons y ys2 =>
        rw [dumpsVList] at hdump
        cases hw : jsonDumps w with
        | none => rw [hw] at hdump; cases hdump
        | some dw =>
          rw [hw] at hdump
          cases htl : dumpsVList (VList.cons y ys2) with
          | none => rw [htl] at hdump; cases hdump
          | some tl =>
            rw [htl, Option.some.injEq] at hdump
            subst hdump
            rw [jParseArrLoop]
            have harr : (dw ++ ',' :: ' ' :: tl) ++ ']' :: rest
                = dw ++ (',' :: ' ' :: (tl ++ ']' :: rest)) := by simp
            rw [harr]
            have hval := (IH (N - 1) hN1).1 w (by omega) hgw hjw dw hw
              (',' :: ' ' :: (tl ++ ']' :: rest)) g rfl
              (by simp only [List.length_append, List.length_cons] at hfuel ⊢; omega)
            rw [hval]
            dsimp only
            rw [skipWs_cons_nonws _ (by decide)]
            dsimp only
            rw [if_pos (by decide)]
            rw [jParseArrLoop_congr g _ _ _ (skipWs_cons_space _)]
            have htail := (IH (N - 1) hN1).2.1 (VList.cons y ys2) (by
                rw [vlsize] at hsz ⊢
                omega)
              (by intro hc; cases hc) hgys hjys tl htl (vlSnoc acc w) rest g
              (by simp only [List.length_append, List.length_cons] at hfuel ⊢; omega)
            rw [htail, vlSnoc_eq_append, vlAppend_snoc]
  · -- object members
    intro kvs hsz hnen hgood hjs hnd txt hdump acc hfresh rest f hfuel
    obtain ⟨g, rfl⟩ : ∃ g, f = g + 1 := by
      cases f with
      | zero => exact absurd hfuel (by omega)
      | succ g => exact ⟨g, rfl⟩
    cases kvs with
    | nil => exact absurd rfl hnen
    | cons k w ys =>
      have hkacc : kvHasKey acc k = false := by
        rw [kvFresh, Bool.and_eq_true] at hfresh
        simpa using hfresh.1
      rw [goodKVList, Bool.and_eq_true, Bool.and_eq_true] at hgood
      obtain ⟨⟨hk, hgw⟩, hgys⟩ := hgood
      rw [jsonSafeKVList, Bool.and_eq_true, Bool.and_eq_true] at hjs
      obtain ⟨⟨hsk, hjw⟩, hjys⟩ := hjs
      cases k with
      | int n => simp [isStrKey] at hsk
      | bool b => simp [isStrKey] at hsk
      | null => simp [isStrKey] at hsk
      | str ks =>
      rw [keyClean] at hk
      rw [kvsize] at hsz
      have hwpos := vsize_pos w
      have hN1 : N - 1 < N := by omega
      cases ys with
      | nil =>
        rw [dumpsKVList] at hdump
        cases hw : jsonDumps w with
        | none => rw [hw] at hdump; cases hdump
        | some dw =>
          rw [hw, Option.some.injEq, keyChars] at hdump
          subst hdump
          have harr : ('"' :: escJ ks ++ '"' :: ':' :: ' ' :: dw) ++ '}' :: rest
              = '"' :: (escJ ks ++ '"' :: (':' :: ' ' :: (dw ++ '}' :: rest))) := by simp
          rw [harr, jParseObjLoop_quote]
          rw [jStringBody_escJ ks _
            (all_weaken (fun c hc => decide_eq_true (litCharOk_ge32 c hc)) ks hk)]
          dsimp only
          rw [skipWs_cons_nonws _ (by decide)]
          dsimp only
          rw [if_pos (by decide)]
          rw [jParseVal_congr g _ _ (skipWs_cons_space _)]
          have hval := (IH (N - 1) hN1).1 w (by omega) hgw hjw dw hw ('}' :: rest) g
            rfl
            (by simp only [List.length_append, List.length_cons] at hfuel ⊢; omega)
          rw [hval]
          dsimp only
          rw [skipWs_cons_nonws _ (by decide)]
          dsimp only
          rw [if_neg (by decide), if_pos (by decide), kvInsert_fresh _ _ _ hkacc]
      | cons k2 w2 ys2 =>
        have hfr2 := kvFresh_step acc (.str ks) w (KVList.cons k2 w2 ys2) hfresh hnd
        rw [kvNodup, Bool.and_eq_true] at hnd
        obtain ⟨hfr, hndys⟩ := hnd
        rw [dumpsKVList] at hdump
        cases hw : jsonDumps w with
        | none => rw [hw] at hdump; cases hdump
        | some dw =>
          rw [hw] at hdump
          cases htl : dumpsKVList (KVList.cons k2 w2 ys2) with
          | none => rw [htl] at hdump; cases hdump
          | some tl =>
            rw [htl, Option.some.injEq, keyChars] at hdump
            subst hdump
            have harr : ('"' :: escJ ks ++ '"' :: ':' :: ' ' :: dw ++ ',' :: ' ' :: tl) ++ '}' :: rest
                = '"' :: (escJ ks ++ '"' :: (':' :: ' ' :: (dw ++ (',' :: ' ' :: (tl ++ '}' :: rest))))) := by
              simp
            rw [harr, jParseObjLoop_quote]
            rw [jStringBody_escJ ks _
              (all_weaken (fun c hc => decide_eq_true (litCharOk_ge32 c hc)) ks hk)]
            dsimp only
            rw [skipWs_cons_nonws _ (by decide)]
            dsimp only
            rw [if_pos (by decide)]
            rw [jParseVal_congr g _ _ (skipWs_cons_space _)]
            have hval := (IH (N - 1) hN1).1 w (by omega) hgw hjw dw hw
              (',' :: ' ' :: (tl ++ '}' :: rest)) g rfl
              (by simp only [List.length_append, List.length_cons] at hfuel ⊢; omega)
            rw [hval]
            dsimp only
            rw [skipWs_cons_nonws _ (by decide)]
            dsimp only
            rw [if_pos (by decide)]
            rw [jParseObjLoop_congr g _ _ _ (skipWs_cons_space _)]
            rw [kvInsert_fresh _ _ _ hkacc]
            have htail := (IH (N - 1) hN1).2.2 (KVList.cons k2 w2 ys2) (by
                rw [kvsize] at hsz ⊢
                omega)
              (by intro hc; cases hc) hgys hjys hndys tl htl
              (kvAppend acc (KVList.cons (PKey.str ks) w KVList.nil)) hfr2 rest g
              (by simp only [List.length_append, List.length_cons] at hfuel ⊢; omega)
            rw [htail, kvAppend_snoc]

/-- C9 counterexample: `format_json` succeeds on the versions files
`(1, 2)` and `{1: 2}`, but parsing the JSON it writes does not return
the parsed literal value.  `json.dumps` coerces the tuple `(1, 2)` to
the array `[1, 2]`, which parses back as a list — and a tuple is never
a list.  It coerces the int key of `{1: 2}` to a string, writing
`{"1": 2}`, which parses back as a string-keyed dict distinct from the
int-keyed input. -/
theorem format_json_roundtrip_failures :
    (format_json_run (chars "(1, 2)")
        = ([Ev.read,
            Ev.printVal (Value.tuple (VList.cons (Value.int 1)
              (VList.cons (Value.int 2) VList.nil))),
            Ev.openW, Ev.write (chars "[1, 2]")], chars "[1, 2]",
           some (Value.tuple (VList.cons (Value.int 1) (VList.cons (Value.int 2) VList.nil))))
      ∧ jsonParse (chars "[1, 2]")
          = some (Value.list (VList.cons (Value.int 1) (VList.cons (Value.int 2) VList.nil)))
      ∧ ∀ xs ys, Value.tuple xs ≠ Value.list ys)
    ∧ (format_json_run (chars "\x7b1: 2\x7d")
        = ([Ev.read,
            Ev.printVal (Value.dict (KVList.cons (PKey.int 1) (Value.int 2) KVList.nil)),
            Ev.openW, Ev.write (chars "\x7b\"1\": 2\x7d")], chars "\x7b\"1\": 2\x7d",
           some (Value.dict (KVList.cons (PKey.int 1) (Value.int 2) KVList.nil)))
      ∧ jsonParse (chars "\x7b\"1\": 2\x7d")
          = some (Value.dict (KVList.cons (PKey.str ('1' :: [])) (Value.int 2) KVList.nil))
      ∧ Value.dict (KVList.cons (PKey.int 1) (Value.int 2) KVList.nil)
          ≠ Value.dict (KVList.cons (PKey.str ('1' :: [])) (Value.int 2) KVList.nil)) :=
  ⟨⟨rfl, rfl, fun _ _ h => Value.noConfusion h⟩, rfl, rfl, by simp⟩

/-- C9 amended: round-trip with the coercion proviso.  For every input
on which `format_json` succeeds (the transformed text parses to `v` and
`json.dumps` serializes `v`), if `v` contains no tuple and no
non-string dict key, parsing the JSON text it writes yields a structure
equal to the in-memory value.  Without the proviso the round trip
fails: `json.dumps` coerces tuples to arrays and non-string keys to
strings, as the preceding counterexample exhibits. -/
theorem format_json_roundtrip (c : List Char) (v : Value) (d : List Char)
    (hp : parseLit (pySub c) = some v) (hsafe : jsonSafeValue v = true)
    (hd : jsonDumps v = some d) :
    jsonParse d = some v := by
  rw [parseLit] at hp
  have hgood : goodValue v = true := by
    split at hp
    · rename_i v0 r0 heq
      split at hp
      · rw [Option.some.injEq] at hp
        subst hp
        exact (parse_good _).1 _ _ _ heq
      · cases hp
    · cases hp
  have hrt := (jparse_roundtrip (vsize v)).1 v (le_refl _) hgood hsafe d hd []
    (2 * d.length + 2) rfl (by simp)
  rw [List.append_nil] at hrt
  rw [jsonParse, hrt]
  dsimp only
  rw [if_pos (show skipWs [] = [] from rfl)]

/-- Witness for `format_json_roundtrip` at the versions file `{a=1}`. -/
theorem format_json_roundtrip_witness :
    jsonParse (chars "\x7b\"a\": 1\x7d")
      = some (.dict (.cons (.str ('a' :: [])) (.int 1) .nil)) :=
  format_json_roundtrip (chars "\x7ba=1\x7d")
    (.dict (.cons (.str ('a' :: [])) (.int 1) .nil))
    (chars "\x7b\"a\": 1\x7d") rfl rfl rfl

/-- `pySubF` on the empty string. -/
theorem pySubF_nil : ∀ f, pySubF f [] = [] := by
  intro f
  cases f <;> rfl

/-- Dropping a prefix never lengthens a list. -/
theorem dropWhile_length_le (p : Char → Bool) :
    ∀ l : List Char, (l.dropWhile p).length ≤ l.length := by
  intro l
  induction l with
  | nil => simp
  | cons c rest ih =>
    rw [List.dropWhile_cons]
    by_cases h : p c
    · simp only [h, if_true, List.length_cons]
      omega
    · simp [h]

/-- `pySubF` is fuel-independent once the fuel covers the length. -/
theorem pySubF_fuel : ∀ f g s, s.length ≤ f → s.length ≤ g →
    pySubF f s = pySubF g s := by
  intro f
  induction f with
  | zero =>
    intro g s hf _
    have : s = [] := List.length_eq_zero.mp (Nat.le_zero.mp hf)
    subst this
    rw [pySubF_nil, pySubF_nil]
  | succ f ih =>
    intro g s hf hg
    cases s with
    | nil => rw [pySubF_nil, pySubF_nil]
    | cons c rest =>
      cases g with
      | zero => exact absurd hg (by simp)
      | succ g =>
        simp only [List.length_cons] at hf hg
        rw [pySubF, pySubF]
        by_cases hw : isWordChar c
        · rw [if_pos hw, if_pos hw]
          cases hdw : List.dropWhile isWordChar (c :: rest) with
          | nil =>
            dsimp only
            rw [ih g rest (by omega) (by omega)]
          | cons d rest2 =>
            have hlen : rest2.length ≤ rest.length := by
              have h1 := dropWhile_length_le isWordChar (c :: rest)
              rw [hdw] at h1
              simp only [List.length_cons] at h1
              omega
            split
            · rename_i rest2a heqa
              rw [List.cons.injEq] at heqa
              obtain ⟨hda, hra⟩ := heqa
              subst hda
              subst hra
              rw [ih g rest2 (by omega) (by omega)]
            · rw [ih g rest (by omega) (by omega)]
        · rw [if_neg hw, if_neg hw]
          rw [ih g rest (by omega) (by omega)]

/-- A single non-word character passes through the rewrite untouched. -/
theorem pySubF_nonword (c : Char) (rest : List Char) (f : Nat)
    (hw : isWordChar c = false) (hf : (c :: rest).length ≤ f) :
    pySubF f (c :: rest) = c :: pySubF f rest := by
  cases f with
  | zero => exact absurd hf (by simp)
  | succ f =>
    rw [pySubF, if_neg (by rw [hw]; exact Bool.false_ne_true)]
    simp only [List.length_cons] at hf
    rw [pySubF_fuel f (f + 1) rest (by omega) (by omega)]

/-- Digits are word characters. -/
theorem isWordChar_of_digit (c : Char) (h : c.isDigit = true) :
    isWordChar c = true := by
  rw [isWordChar, Char.isAlphanum, h]
  simp

/-- A word run not followed by `=` passes through untouched. -/
theorem pySubF_wordrun : ∀ (k rest : List Char) (f : Nat),
    k.all isWordChar = true → restOk rest = true → (k ++ rest).length ≤ f →
    pySubF f (k ++ rest) = k ++ pySubF f rest := by
  intro k
  induction k with
  | nil => intro rest f _ _ _; rw [List.nil_append, List.nil_append]
  | cons a k2 ih =>
    intro rest f hall hro hf
    rw [List.all_cons, Bool.and_eq_true] at hall
    obtain ⟨ha, hk2⟩ := hall
    cases f with
    | zero => exact absurd hf (by simp)
    | succ f =>
      rw [List.cons_append, pySubF, if_pos ha]
      have hhead : ∀ c, rest.head? = some c → isWordChar c = false := by
        intro c hc
        cases rest with
        | nil => cases hc
        | cons c0 l =>
          rw [List.head?_cons, Option.some.injEq] at hc
          subst hc
          rw [restOk, Bool.and_eq_true] at hro
          simpa using hro.1
      obtain ⟨hts, hds⟩ := takeWhile_app isWordChar k2 rest hk2 hhead
      have hdw : List.dropWhile isWordChar (a :: (k2 ++ rest)) = rest := by
        rw [List.dropWhile_cons, if_pos ha, hds]
      rw [hdw]
      cases rest with
      | nil =>
        dsimp only
        simp only [List.length_cons, List.length_append] at hf
        rw [ih [] f hk2 rfl (by simp; omega), pySubF_nil, pySubF_nil]
        simp
      | cons c0 l =>
        have hc0 : (c0 == '=') = false := by
          rw [restOk, Bool.and_eq_true] at hro
          simpa using hro.2
        split
        · rename_i rest2a heqa
          rw [List.cons.injEq] at heqa
          exfalso
          rw [heqa.1] at hc0
          exact absurd hc0 (by decide)
        · simp only [List.length_cons, List.length_append] at hf
          rw [ih (c0 :: l) f hk2 hro (by simp; omega),
            pySubF_fuel f (f + 1) (c0 :: l) (by simp; omega) (by simp; omega)]
          simp

/-- An identifier immediately followed by `=` is rewritten to a quoted
key and a colon. -/
theorem pySubF_entry : ∀ (k rest : List Char) (f : Nat), k ≠ [] →
    k.all isWordChar = true → (k ++ '=' :: rest).length ≤ f →
    pySubF f (k ++ '=' :: rest) = '\'' :: k ++ '\'' :: ':' :: pySubF f rest := by
  intro k rest f hne hall hf
  cases k with
  | nil => exact absurd rfl hne
  | cons a k2 =>
    rw [List.all_cons, Bool.and_eq_true] at hall
    obtain ⟨ha, hk2⟩ := hall
    cases f with
    | zero => exact absurd hf (by simp)
    | succ f =>
      rw [List.cons_append, pySubF, if_pos ha]
      have hhead : ∀ c, ('=' :: rest).head? = some c → isWordChar c = false := by
        intro c hc
        rw [List.head?_cons, Option.some.injEq] at hc
        subst hc
        decide
      obtain ⟨hts, hds⟩ := takeWhile_app isWordChar k2 ('=' :: rest) hk2 hhead
      have hdw : List.dropWhile isWordChar (a :: (k2 ++ '=' :: rest)) = '=' :: rest := by
        rw [List.dropWhile_cons, if_pos ha, hds]
      have htw : List.takeWhile isWordChar (a :: (k2 ++ '=' :: rest)) = a :: k2 := by
        rw [List.takeWhile_cons, if_pos ha, hts]
      split
      · rename_i rest2a heqa
        rw [hdw, List.cons.injEq] at heqa
        obtain ⟨_, hra⟩ := heqa
        subst hra
        rw [htw]
        simp only [List.length_cons, List.length_append] at hf
        rw [pySubF_fuel f (f + 1) rest (by omega) (by omega)]
      · rename_i hnall
        exact absurd hdw (hnall rest)

/-- The tail of a `pairsOk` run is `pairsOk`. -/
theorem pairsOk_tail : ∀ (a : Char) (rest : List Char),
    pairsOk (a :: rest) = true → pairsOk rest = true := by
  intro a rest h
  cases rest with
  | nil => rfl
  | cons b r =>
    rw [pairsOk, Bool.and_eq_true] at h
    exact h.2

/-- Inside a `pairsOk` body terminated by a quote, a word run is never
followed by `=`. -/
theorem dropWhile_body_ne_eq : ∀ (body : List Char) (c : Char) (rest : List Char),
    isWordChar c = true → pairsOk (c :: body) = true →
    ∀ rest2, List.dropWhile isWordChar (c :: (body ++ '"' :: rest)) ≠ '=' :: rest2 := by
  intro body
  induction body with
  | nil =>
    intro c rest hw _ rest2
    rw [List.nil_append, List.dropWhile_cons, if_pos hw, List.dropWhile_cons,
      if_neg (by decide)]
    intro h
    rw [List.cons.injEq] at h
    exact absurd h.1 (by decide)
  | cons b body2 ih =>
    intro c rest hw hp rest2
    rw [pairsOk, Bool.and_eq_true] at hp
    obtain ⟨hpair, hptail⟩ := hp
    rw [List.cons_append, List.dropWhile_cons, if_pos hw]
    by_cases hb : isWordChar b = true
    · have := ih b rest hb hptail rest2
      rw [List.dropWhile_cons, if_pos hb] at this ⊢
      exact this
    · rw [List.dropWhile_cons, if_neg hb]
      intro h
      rw [List.cons.injEq] at h
      rw [h.1] at hpair
      rw [hw] at hpair
      simp at hpair

/-- A `pairsOk` body scans through the rewrite untouched up to and
including its closing double quote. -/
theorem pySubF_body : ∀ (body rest : List Char) (f : Nat), pairsOk body = true →
    (body ++ '"' :: rest).length ≤ f →
    pySubF f (body ++ '"' :: rest) = body ++ '"' :: pySubF f rest := by
  intro body
  induction body with
  | nil =>
    intro rest f _ hf
    rw [List.nil_append, pySubF_nonword '"' rest f (by decide) hf, List.nil_append]
  | cons c body2 ih =>
    intro rest f hp hf
    by_cases hw : isWordChar c = true
    · cases f with
      | zero => exact absurd hf (by simp)
      | succ f =>
        rw [List.cons_append, pySubF, if_pos hw]
        have hne := dropWhile_body_ne_eq body2 c rest hw hp
        cases hdw : List.dropWhile isWordChar (c :: (body2 ++ '"' :: rest)) with
        | nil =>
          dsimp only
          simp only [List.length_cons, List.length_append] at hf
          rw [ih rest f (pairsOk_tail c body2 hp) (by simp; omega),
            pySubF_fuel f (f + 1) rest (by omega) (by omega)]
          simp
        | cons d rest2 =>
          split
          · rename_i rest2a heqa
            exact absurd (hdw.trans heqa) (hne rest2a)
          · simp only [List.length_cons, List.length_append] at hf
            rw [ih rest f (pairsOk_tail c body2 hp) (by simp; omega),
              pySubF_fuel f (f + 1) rest (by omega) (by omega)]
            simp
    · rw [List.cons_append,
        pySubF_nonword c _ f (by simpa using hw) (by simpa using hf)]
      simp only [List.length_cons, List.length_append] at hf
      rw [ih rest f (pairsOk_tail c body2 hp) (by simp; omega)]
      simp

/-- A double-quoted `pairsOk` string literal passes through the rewrite
untouched. -/
theorem pySubF_string (body rest : List Char) (f : Nat) (hp : pairsOk body = true)
    (hf : ('"' :: body ++ '"' :: rest).length ≤ f) :
    pySubF f ('"' :: body ++ '"' :: rest) = '"' :: body ++ '"' :: pySubF f rest := by
  rw [List.cons_append, pySubF_nonword '"' _ f (by decide) (by simpa using hf)]
  simp only [List.length_cons, List.length_append] at hf
  rw [pySubF_body body rest f hp (by simp; omega)]
  simp

/-- Decimal digits form a word run. -/
theorem natDec_word (n : Nat) : (natDec n).all isWordChar = true := by
  rw [natDec]
  exact all_weaken isWordChar_of_digit _ (natDecF_spec (n + 1) n (Nat.lt_succ_self n)).2

/-- A rendered integer passes through the rewrite untouched when the
remainder cannot extend it into a `name=` pattern. -/
theorem pySubF_intDec (n : Int) (rest : List Char) (f : Nat)
    (hro : restOk rest = true) (hf : (intDec n ++ rest).length ≤ f) :
    pySubF f (intDec n ++ rest) = intDec n ++ pySubF f rest := by
  rw [intDec] at hf ⊢
  by_cases hn : n < 0
  · rw [if_pos hn] at hf ⊢
    rw [List.cons_append, pySubF_nonword '-' _ f (by decide) (by simpa using hf),
      pySubF_wordrun (natDec n.natAbs) rest f (natDec_word _) hro
        (by simp only [List.length_cons, List.length_append] at hf ⊢; omega)]
    rfl
  · rw [if_neg hn] at hf ⊢
    rw [pySubF_wordrun (natDec n.toNat) rest f (natDec_word _) hro hf]

/-- Chunk-wise action of the `(\w+)=` rewrite on a rendered well-formed
structure: every `key=` becomes a quoted key and a colon, everything
else passes through, in the presence of an arbitrary safe remainder. -/
theorem pySub_renderF : ∀ N : Nat,
    (∀ v, vsize v ≤ N → wfValue v = true → ∀ rest f, restOk rest = true →
      (renderValue v ++ rest).length ≤ f →
      pySubF f (renderValue v ++ rest) = renderValueQ v ++ pySubF f rest)
    ∧ (∀ xs, vlsize xs ≤ N → wfVList xs = true → ∀ rest f, restOk rest = true →
      (renderVList xs ++ rest).length ≤ f →
      pySubF f (renderVList xs ++ rest) = renderVListQ xs ++ pySubF f rest)
    ∧ (∀ ys, kvsize ys ≤ N → wfKVList ys = true → ∀ rest f, restOk rest = true →
      (renderKVList ys ++ rest).length ≤ f →
      pySubF f (renderKVList ys ++ rest) = renderKVListQ ys ++ pySubF f rest) := by
  intro N
  induction N using Nat.strong_induction_on with
  | _ N IH =>
  refine ⟨?_, ?_, ?_⟩
  · -- values
    intro v hsz hwf rest f hro hf
    cases v with
    | str s =>
      rw [wfValue, Bool.and_eq_true] at hwf
      rw [renderValue] at hf ⊢
      rw [renderValueQ]
      have harr : ('"' :: s ++ '"' :: []) ++ rest = '"' :: s ++ '"' :: rest := by simp
      rw [harr] at hf ⊢
      rw [pySubF_string s rest f hwf.2 hf]
      simp
    | int n =>
      rw [renderValue] at hf ⊢
      rw [renderValueQ]
      exact pySubF_intDec n rest f hro hf
    | bool b =>
      cases b with
      | false =>
        rw [renderValue] at hf ⊢
        rw [renderValueQ]
        exact pySubF_wordrun (chars "False") rest f (by decide) hro hf
      | true =>
        rw [renderValue] at hf ⊢
        rw [renderValueQ]
        exact pySubF_wordrun (chars "True") rest f (by decide) hro hf
    | null =>
      rw [renderValue] at hf ⊢
      rw [renderValueQ]
      exact pySubF_wordrun (chars "None") rest f (by decide) hro hf
    | set xs => simp [wfValue] at hwf
    | tuple xs => simp [wfValue] at hwf
    | list xs =>
      rw [wfValue] at hwf
      rw [vsize] at hsz
      rw [renderValue] at hf ⊢
      rw [renderValueQ]
      have harr : ('[' :: renderVList xs ++ ']' :: []) ++ rest
          = '[' :: (renderVList xs ++ ']' :: rest) := by simp
      rw [harr] at hf ⊢
      rw [pySubF_nonword '[' _ f (by decide) hf]
      obtain ⟨-, hPL, -⟩ := IH (N - 1) (by omega)
      rw [hPL xs (by omega) hwf (']' :: rest) f rfl
        (by simp only [List.length_cons, List.length_append] at hf ⊢; omega)]
      rw [pySubF_nonword ']' rest f (by decide)
        (by simp only [List.length_cons, List.length_append] at hf ⊢; omega)]
      simp
    | dict kvs =>
      rw [wfValue, Bool.and_eq_true] at hwf
      rw [vsize] at hsz
      rw [renderValue] at hf ⊢
      rw [renderValueQ]
      have harr : ('{' :: renderKVList kvs ++ '}' :: []) ++ rest
          = '{' :: (renderKVList kvs ++ '}' :: rest) := by simp
      rw [harr] at hf ⊢
      rw [pySubF_nonword '{' _ f (by decide) hf]
      obtain ⟨-, -, hPK⟩ := IH (N - 1) (by omega)
      rw [hPK kvs (by omega) hwf.1 ('}' :: rest) f rfl
        (by simp only [List.length_cons, List.length_append] at hf ⊢; omega)]
      rw [pySubF_nonword '}' rest f (by decide)
        (by simp only [List.length_cons, List.length_append] at hf ⊢; omega)]
      simp
  · -- element sequences
    intro xs hsz hwf rest f hro hf
    cases xs with
    | nil =>
      rw [renderVList] at hf ⊢
      rw [renderVListQ]
      simp
    | cons v tail =>
      rw [wfVList, Bool.and_eq_true] at hwf
      obtain ⟨hwv, hwt⟩ := hwf
      rw [vlsize] at hsz
      have hvp := vsize_pos v
      cases tail with
      | nil =>
        rw [renderVList] at hf ⊢
        rw [renderVListQ]
        exact (IH (N - 1) (by omega)).1 v (by omega) hwv rest f hro hf
      | cons w tl =>
        rw [renderVList] at hf ⊢
        rw [renderVListQ]
        have harr : (renderValue v ++ ',' :: ' ' :: renderVList (VList.cons w tl)) ++ rest
            = renderValue v ++ ',' :: ' ' :: (renderVList (VList.cons w tl) ++ rest) := by
          simp
        rw [harr] at hf ⊢
        obtain ⟨hPV, hPL, -⟩ := IH (N - 1) (by omega)
        rw [hPV v (by omega) hwv (',' :: ' ' :: (renderVList (VList.cons w tl) ++ rest)) f rfl hf]
        rw [pySubF_nonword ',' _ f (by decide)
          (by simp only [List.length_cons, List.length_append] at hf ⊢; omega)]
        rw [pySubF_nonword ' ' _ f (by decide)
          (by simp only [List.length_cons, List.length_append] at hf ⊢; omega)]
        rw [hPL (VList.cons w tl) (by omega) hwt rest f hro
          (by simp only [List.length_cons, List.length_append] at hf ⊢; omega)]
        simp
  · -- entry sequences
    intro ys hsz hwf rest f hro hf
    cases ys with
    | nil =>
      rw [renderKVList] at hf ⊢
      rw [renderKVListQ]
      simp
    | cons k v tail =>
      rw [wfKVList, Bool.and_eq_true, Bool.and_eq_true] at hwf
      obtain ⟨⟨hwk, hwv⟩, hwt⟩ := hwf
      cases k with
      | int kn => simp [wfKey] at hwk
      | bool kb => simp [wfKey] at hwk
      | null => simp [wfKey] at hwk
      | str ks =>
      rw [wfKey, keyOk, Bool.and_eq_true] at hwk
      obtain ⟨hk1, hkall⟩ := hwk
      have hkne : ks ≠ [] := by
        intro hcon
        rw [hcon] at hk1
        simp at hk1
      rw [kvsize] at hsz
      have hvp := vsize_pos v
      cases tail with
      | nil =>
        rw [renderKVList, renderKey] at hf ⊢
        rw [renderKVListQ, renderKey]
        have harr : (ks ++ '=' :: renderValue v) ++ rest
            = ks ++ '=' :: (renderValue v ++ rest) := by simp
        rw [harr] at hf ⊢
        rw [pySubF_entry ks _ f hkne hkall hf]
        rw [(IH (N - 1) (by omega)).1 v (by omega) hwv rest f hro
          (by simp only [List.length_cons, List.length_append] at hf ⊢; omega)]
        simp
      | cons k2 v2 tl =>
        rw [renderKVList, renderKey] at hf ⊢
        rw [renderKVListQ, renderKey]
        have harr :
            (ks ++ '=' :: renderValue v ++ ',' :: ' ' :: renderKVList (KVList.cons k2 v2 tl))
              ++ rest
            = ks ++ '=' :: (renderValue v
                ++ ',' :: ' ' :: (renderKVList (KVList.cons k2 v2 tl) ++ rest)) := by
          simp
        rw [harr] at hf ⊢
        rw [pySubF_entry ks _ f hkne hkall hf]
        obtain ⟨hPV, -, hPK⟩ := IH (N - 1) (by omega)
        rw [hPV v (by omega) hwv
          (',' :: ' ' :: (renderKVList (KVList.cons k2 v2 tl) ++ rest)) f rfl
          (by simp only [List.length_cons, List.length_append] at hf ⊢; omega)]
        rw [pySubF_nonword ',' _ f (by decide)
          (by simp only [List.length_cons, List.length_append] at hf ⊢; omega)]
        rw [pySubF_nonword ' ' _ f (by decide)
          (by simp only [List.length_cons, List.length_append] at hf ⊢; omega)]
        rw [hPK (KVList.cons k2 v2 tl) (by omega) hwt rest f hro
          (by simp only [List.length_cons, List.length_append] at hf ⊢; omega)]
        simp

/-- On the rendering of a well-formed structure, the `(\w+)=` rewrite
produces exactly the quoted-key rendering. -/
theorem pySub_render (v : Value) (hwf : wfValue v = true) :
    pySub (renderValue v) = renderValueQ v := by
  have h := (pySub_renderF (vsize v)).1 v (le_refl _) hwf [] (renderValue v).length rfl
    (by simp)
  rw [pySubF_nil, List.append_nil, List.append_nil] at h
  rw [pySub]
  exact h

/-- A word character is a clean literal character distinct from a single
quote. -/
theorem wordChar_keyChar (c : Char) (h : isWordChar c = true) :
    (!(c == '\'') && litCharOk c) = true := by
  obtain ⟨h1, h2⟩ := wordChar_range c h
  have hq : (c == '\'') = false := beq_false_of_pred h (by decide)
  have hb : (c == '\\') = false := beq_false_of_pred h (by decide)
  rw [hq, litCharOk]
  simp only [Bool.not_false, Bool.true_and, Bool.and_eq_true, bne_iff_ne, decide_eq_true_eq]
  refine ⟨⟨h1, h2⟩, ?_⟩
  intro hc
  rw [hc] at hb
  simp at hb

/-- A clean double-quoted string body scans against its closing quote. -/
theorem strBodyOk_all (s : List Char) (h : strBodyOk s = true) :
    s.all (fun c => !(c == '"') && litCharOk c) = true := by
  rw [strBodyOk] at h
  refine all_weaken ?_ s h
  intro c hc
  simp only [Bool.and_eq_true, bne_iff_ne, decide_eq_true_eq] at hc
  obtain ⟨⟨⟨h1, h2⟩, h3⟩, h4⟩ := hc
  have hq : (c == '"') = false := by
    cases hx : c == '"'
    · rfl
    · exact absurd (eq_of_beq hx) h3
  rw [hq, litCharOk]
  simp only [Bool.not_false, Bool.true_and, Bool.and_eq_true, bne_iff_ne, decide_eq_true_eq]
  exact ⟨⟨h1, h2⟩, h4⟩

/-- A bare identifier scans as a single-quoted string body. -/
theorem keyOk_all (k : List Char) (h : k.all isWordChar = true) :
    k.all (fun c => !(c == '\'') && litCharOk c) = true :=
  all_weaken wordChar_keyChar k h

/-- The transformed rendering of a non-empty dict starts with a quoted
key and continues after the colon. -/
theorem renderKVListQ_cons (k : PKey) (v : Value) (ys : KVList) :
    renderKVListQ (KVList.cons k v ys)
      = '\'' :: (renderKey k ++ '\'' :: ':' :: renderAfterKeyQ v ys) := by
  cases ys with
  | nil =>
    rw [renderKVListQ, renderAfterKeyQ]
    simp
  | cons k2 v2 xs =>
    rw [renderKVListQ, renderAfterKeyQ]
    simp

/-- The transformed rendering of a well-formed value is non-empty and
starts with a character that is not whitespace and closes no bracket. -/
theorem renderQ_head (v : Value) (hwf : wfValue v = true) :
    ∃ c X, renderValueQ v = c :: X
      ∧ (c == ' ' || c == '\n' || c == '\t' || c == '\r') = false
      ∧ (c == ']') = false ∧ (c == '}') = false := by
  cases v with
  | str s => exact ⟨'"', s ++ '"' :: [], rfl, by decide, by decide, by decide⟩
  | int n =>
    rw [renderValueQ, intDec]
    by_cases hn : n < 0
    · rw [if_pos hn]
      exact ⟨'-', natDec n.natAbs, rfl, by decide, by decide, by decide⟩
    · rw [if_neg hn, natDec]
      have hlt : n.toNat < n.toNat + 1 := Nat.lt_succ_self _
      obtain ⟨hne, hall⟩ := natDecF_spec (n.toNat + 1) n.toNat hlt
      cases hd : natDecF (n.toNat + 1) n.toNat with
      | nil => exact absurd hd hne
      | cons c X =>
        have hdig : c.isDigit = true := by
          rw [hd, List.all_cons, Bool.and_eq_true] at hall
          exact hall.1
        exact ⟨c, X, rfl,
          nonws_of_pred hdig (by decide) (by decide) (by decide) (by decide),
          beq_false_of_pred hdig (by decide), beq_false_of_pred hdig (by decide)⟩
  | bool b =>
    cases b
    · exact ⟨'F', chars "alse", rfl, by decide, by decide, by decide⟩
    · exact ⟨'T', chars "rue", rfl, by decide, by decide, by decide⟩
  | null => exact ⟨'N', chars "one", rfl, by decide, by decide, by decide⟩
  | list xs => exact ⟨'[', renderVListQ xs ++ ']' :: [], rfl, by decide, by decide, by decide⟩
  | dict kvs => exact ⟨'{', renderKVListQ kvs ++ '}' :: [], rfl, by decide, by decide, by decide⟩
  | set xs => simp [wfValue] at hwf
  | tuple xs => simp [wfValue] at hwf

/-- The transformed rendering of a non-empty element sequence starts
with a value head. -/
theorem renderVListQ_head (v : Value) (tl : VList) (hwf : wfValue v = true) :
    ∃ c X, renderVListQ (VList.cons v tl) = c :: X
      ∧ (c == ' ' || c == '\n' || c == '\t' || c == '\r') = false
      ∧ (c == ']') = false := by
  obtain ⟨c, X, hEq, h1, h2, _⟩ := renderQ_head v hwf
  cases tl with
  | nil => exact ⟨c, X, by rw [renderVListQ, hEq], h1, h2⟩
  | cons w tl2 =>
    refine ⟨c, X ++ ',' :: ' ' :: renderVListQ (VList.cons w tl2), ?_, h1, h2⟩
    rw [renderVListQ, hEq]
    rfl

/-- One-step evaluation of the literal parser on a single quote. -/
theorem parseVal_squote (g : Nat) (X : List Char) :
    parseVal (g + 1) ('\'' :: X)
      = (match parseQuoted '\'' X with
         | some (str, r) => some (.str str, r)
         | none => none) := rfl

/-- One-step evaluation of the literal parser on a double quote. -/
theorem parseVal_dquote (g : Nat) (X : List Char) :
    parseVal (g + 1) ('"' :: X)
      = (match parseQuoted '"' X with
         | some (str, r) => some (.str str, r)
         | none => none) := rfl

/-- One-step evaluation on the `True` keyword. -/
theorem parseVal_true_lit (g : Nat) (rest : List Char) :
    parseVal (g + 1) (chars "True" ++ rest) = some (.bool true, rest) := rfl

/-- One-step evaluation on the `False` keyword. -/
theorem parseVal_false_lit (g : Nat) (rest : List Char) :
    parseVal (g + 1) (chars "False" ++ rest) = some (.bool false, rest) := rfl

/-- One-step evaluation on the `None` keyword. -/
theorem parseVal_null_lit (g : Nat) (rest : List Char) :
    parseVal (g + 1) (chars "None" ++ rest) = some (.null, rest) := rfl

/-- One-step evaluation on a leading minus sign. -/
theorem parseVal_minus (g : Nat) (X : List Char) :
    parseVal (g + 1) ('-' :: X)
      = (match parseNum X with
         | some (n, r) => some (.int (-(n : Int)), r)
         | none => none) := rfl

/-- One-step evaluation on a digit head. -/
theorem parseVal_digit (g : Nat) (c : Char) (X : List Char) (hd : c.isDigit = true) :
    parseVal (g + 1) (c :: X)
      = (match parseNum (c :: X) with
         | some (n, r) => some (.int (n : Int), r)
         | none => none) := by
  rw [parseVal,
    skipWs_cons_nonws _ (nonws_of_pred hd (by decide) (by decide) (by decide) (by decide))]
  dsimp only
  rw [beq_false_of_pred (x := '{') hd (by decide),
    beq_false_of_pred (x := '[') hd (by decide),
    beq_false_of_pred (x := '(') hd (by decide),
    beq_false_of_pred (x := '\'') hd (by decide),
    beq_false_of_pred (x := '"') hd (by decide),
    beq_false_of_pred (x := 'T') hd (by decide),
    beq_false_of_pred (x := 'F') hd (by decide),
    beq_false_of_pred (x := 'N') hd (by decide),
    beq_false_of_pred (x := '-') hd (by decide),
    beq_false_of_pred (x := '+') hd (by decide)]
  simp only [Bool.false_eq_true, if_false]

/-- One-step evaluation on a leading `[`. -/
theorem parseVal_lbrack (g : Nat) (X : List Char) :
    parseVal (g + 1) ('[' :: X)
      = (match skipWs X with
         | [] => parseListLoop g .nil X
         | c2 :: r2 => if c2 == ']' then some (.list .nil, r2) else parseListLoop g .nil X) :=
  rfl

/-- One-step evaluation on a leading `{`. -/
theorem parseVal_lbrace (g : Nat) (X : List Char) :
    parseVal (g + 1) ('{' :: X)
      = (match skipWs X with
         | [] => parseBrace g X
         | c2 :: r2 => if c2 == '}' then some (.dict .nil, r2) else parseBrace g X) :=
  rfl

/-- The literal parser inverts the transformed rendering: a rendered
well-formed value, followed by a digit-free remainder, parses back to
exactly that value (stated together with the invariants for the list
loop, the dict-entry loop and the after-key continuation). -/
theorem parse_renderQ : ∀ N : Nat,
    (∀ v, 2 * vsize v ≤ N → wfValue v = true → ∀ rest f, headSafe rest = true →
      2 * (renderValueQ v ++ rest).length + 2 ≤ f →
      parseVal f (renderValueQ v ++ rest) = some (v, rest))
    ∧ (∀ xs, 2 * vlsize xs ≤ N → xs ≠ VList.nil → wfVList xs = true →
      ∀ acc rest f, 2 * (renderVListQ xs ++ ']' :: rest).length + 3 ≤ f →
      parseListLoop f acc (renderVListQ xs ++ ']' :: rest)
        = some (.list (vlAppend acc xs), rest))
    ∧ (∀ ys, 2 * kvsize ys ≤ N → ys ≠ KVList.nil → wfKVList ys = true →
      kvNodup ys = true → ∀ acc, kvFresh acc ys = true → ∀ rest f,
      2 * (renderKVListQ ys ++ '}' :: rest).length + 3 ≤ f →
      parseDictLoop f acc (renderKVListQ ys ++ '}' :: rest)
        = some (.dict (kvAppend acc ys), rest))
    ∧ (∀ v ys, 2 * vsize v + 2 * kvsize ys + 1 ≤ N → wfValue v = true →
      wfKVList ys = true → ∀ k acc, kvNodup (KVList.cons k v ys) = true →
      kvFresh acc (KVList.cons k v ys) = true → ∀ rest f,
      2 * (renderAfterKeyQ v ys ++ '}' :: rest).length + 3 ≤ f →
      parseDictAfterKey f acc k (renderAfterKeyQ v ys ++ '}' :: rest)
        = some (.dict (kvAppend acc (KVList.cons k v ys)), rest)) := by
  intro N
  induction N using Nat.strong_induction_on with
  | _ N IH =>
  refine ⟨?_, ?_, ?_, ?_⟩
  · -- values
    intro v hsz hwf rest f hsafe hfuel
    obtain ⟨g, rfl⟩ : ∃ g, f = g + 1 := by
      cases f with
      | zero => exact absurd hfuel (by omega)
      | succ g => exact ⟨g, rfl⟩
    cases v with
    | str s =>
      rw [wfValue, Bool.and_eq_true] at hwf
      rw [renderValueQ]
      have harr : ('"' :: s ++ '"' :: []) ++ rest = '"' :: (s ++ '"' :: rest) := by simp
      rw [harr, parseVal_dquote, parseQuoted_app '"' s rest (strBodyOk_all s hwf.1)]
    | int n =>
      rw [renderValueQ, intDec]
      by_cases hn : n < 0
      · rw [if_pos hn, List.cons_append, parseVal_minus, parseNum_natDec _ _ hsafe]
        dsimp only
        have he : -((n.natAbs : Nat) : Int) = n := by omega
        rw [he]
      · rw [if_neg hn]
        have hlt : n.toNat < n.toNat + 1 := Nat.lt_succ_self _
        obtain ⟨hne, hall⟩ := natDecF_spec _ _ hlt
        rw [natDec]
        cases hd : natDecF (n.toNat + 1) n.toNat with
        | nil => exact absurd hd hne
        | cons c X =>
          have hdig : c.isDigit = true := by
            rw [hd, List.all_cons, Bool.and_eq_true] at hall
            exact hall.1
          rw [List.cons_append, parseVal_digit g c _ hdig,
            ← List.cons_append, ← hd, ← natDec, parseNum_natDec _ _ hsafe]
          dsimp only
          have he : ((n.toNat : Nat) : Int) = n := Int.toNat_of_nonneg (by omega)
          rw [he]
    | bool b =>
      cases b
      · rw [renderValueQ, parseVal_false_lit]
      · rw [renderValueQ, parseVal_true_lit]
    | null =>
      rw [renderValueQ, parseVal_null_lit]
    | set xs => simp [wfValue] at hwf
    | tuple xs => simp [wfValue] at hwf
    | list xs =>
      rw [wfValue] at hwf
      rw [renderValueQ] at hfuel ⊢
      have harr : ('[' :: renderVListQ xs ++ ']' :: []) ++ rest
          = '[' :: (renderVListQ xs ++ ']' :: rest) := by simp
      rw [harr] at hfuel ⊢
      rw [parseVal_lbrack]
      cases xs with
      | nil =>
        rw [renderVListQ, List.nil_append, skipWs_cons_nonws _ (by decide)]
        dsimp only
        rw [if_pos (by decide)]
      | cons w ys =>
        have hww : wfValue w = true := by
          rw [wfVList, Bool.and_eq_true] at hwf
          exact hwf.1
        obtain ⟨c, X, hp, hnws, hnb⟩ := renderVListQ_head w ys hww
        rw [hp, List.cons_append, skipWs_cons_nonws _ hnws]
        dsimp only
        rw [hnb]
        simp only [Bool.false_eq_true, if_false]
        rw [← List.cons_append, ← hp]
        rw [vsize] at hsz
        have hN1 : N - 1 < N := by omega
        have harr2 := (IH (N - 1) hN1).2.1 (VList.cons w ys) (by omega)
          (by intro hc; cases hc) hwf VList.nil rest g (by
            simp only [List.length_append, List.length_cons] at hfuel ⊢
            omega)
        rw [harr2]
        rfl
    | dict kvs =>
      rw [wfValue, Bool.and_eq_true] at hwf
      obtain ⟨hwkv, hnd⟩ := hwf
      rw [renderValueQ] at hfuel ⊢
      have harr : ('{' :: renderKVListQ kvs ++ '}' :: []) ++ rest
          = '{' :: (renderKVListQ kvs ++ '}' :: rest) := by simp
      rw [harr] at hfuel ⊢
      rw [parseVal_lbrace]
      cases kvs with
      | nil =>
        rw [renderKVListQ, List.nil_append, skipWs_cons_nonws _ (by decide)]
        dsimp only
        rw [if_pos (by decide)]
      | cons k w ys =>
        rw [wfKVList, Bool.and_eq_true, Bool.and_eq_true] at hwkv
        obtain ⟨⟨hwk, hww⟩, hwys⟩ := hwkv
        cases k with
        | int kn => simp [wfKey] at hwk
        | bool kb => simp [wfKey] at hwk
        | null => simp [wfKey] at hwk
        | str ks =>
        rw [wfKey, keyOk, Bool.and_eq_true] at hwk
        obtain ⟨hk1, hkall⟩ := hwk
        have harrX : renderKVListQ (KVList.cons (PKey.str ks) w ys) ++ '}' :: rest
            = '\'' :: (ks ++ '\'' :: ':' :: (renderAfterKeyQ w ys ++ '}' :: rest)) := by
          rw [renderKVListQ_cons, renderKey]
          simp
        rw [harrX] at hfuel ⊢
        rw [skipWs_cons_nonws _ (by decide)]
        dsimp only
        rw [if_neg (by decide)]
        rw [vsize, kvsize] at hsz
        simp only [List.length_cons, List.length_append] at hfuel
        obtain ⟨g2, rfl⟩ : ∃ g2, g = g2 + 1 := by
          cases g with
          | zero => exact absurd hfuel (by omega)
          | succ g2 => exact ⟨g2, rfl⟩
        obtain ⟨g3, rfl⟩ : ∃ g3, g2 = g3 + 1 := by
          cases g2 with
          | zero => exact absurd hfuel (by omega)
          | succ g3 => exact ⟨g3, rfl⟩
        rw [parseBrace, parseVal_squote, parseQuoted_app '\'' ks _ (keyOk_all ks hkall)]
        dsimp only
        rw [skipWs_cons_nonws _ (by decide)]
        dsimp only
        rw [if_pos (by decide), keyOf]
        dsimp only
        have hN1 : N - 1 < N := by omega
        have haft := (IH (N - 1) hN1).2.2.2 w ys (by omega) hww hwys (PKey.str ks) KVList.nil
          hnd (kvFresh_nil _) rest (g3 + 1) (by
            simp only [List.length_append, List.length_cons]
            omega)
        rw [haft]
        rfl
  · -- list elements
    intro xs hsz hnen hwf acc rest f hfuel
    obtain ⟨g, rfl⟩ : ∃ g, f = g + 1 := by
      cases f with
      | zero => exact absurd hfuel (by omega)
      | succ g => exact ⟨g, rfl⟩
    cases xs with
    | nil => exact absurd rfl hnen
    | cons w ys =>
      rw [wfVList, Bool.and_eq_true] at hwf
      obtain ⟨hww, hwys⟩ := hwf
      rw [vlsize] at hsz
      have hwpos := vsize_pos w
      have hN1 : N - 1 < N := by omega
      cases ys with
      | nil =>
        rw [renderVListQ] at hfuel ⊢
        rw [parseListLoop]
        have hval := (IH (N - 1) hN1).1 w (by omega) hww (']' :: rest) g rfl
          (by simp only [List.length_append, List.length_cons] at hfuel ⊢; omega)
        rw [hval]
        dsimp only
        rw [skipWs_cons_nonws _ (by decide)]
        dsimp only
        rw [if_neg (by decide), if_pos (by decide), vlSnoc_eq_append]
      | cons y ys2 =>
        rw [renderVListQ] at hfuel ⊢
        rw [parseListLoop]
        have harr : (renderValueQ w ++ ',' :: ' ' :: renderVListQ (VList.cons y ys2)) ++ ']' :: rest
            = renderValueQ w ++ (',' :: ' ' :: (renderVListQ (VList.cons y ys2) ++ ']' :: rest)) := by
          simp
        rw [harr] at hfuel ⊢
        have hval := (IH (N - 1) hN1).1 w (by omega) hww
          (',' :: ' ' :: (renderVListQ (VList.cons y ys2) ++ ']' :: rest)) g rfl
          (by simp only [List.length_append, List.length_cons] at hfuel ⊢; omega)
        rw [hval]
        dsimp only
        rw [skipWs_cons_nonws _ (by decide)]
        dsimp only
        rw [if_pos (by decide)]
        have hwy : wfValue y = true := by
          rw [wfVList, Bool.and_eq_true] at hwys
          exact hwys.1
        obtain ⟨c, X, hp, hnws, hnb⟩ := renderVListQ_head y ys2 hwy
        have hskip : skipWs (' ' :: (renderVListQ (VList.cons y ys2) ++ ']' :: rest))
            = c :: (X ++ ']' :: rest) := by
          rw [skipWs_cons_space, hp, List.cons_append, skipWs_cons_nonws _ hnws]
        rw [hskip]
        dsimp only
        rw [hnb]
        simp only [Bool.false_eq_true, if_false]
        rw [parseListLoop_congr g _ _ _ (skipWs_cons_space _)]
        have htail := (IH (N - 1) hN1).2.1 (VList.cons y ys2) (by
            rw [vlsize] at hsz ⊢
            omega)
          (by intro hc; cases hc) hwys (vlSnoc acc w) rest g
          (by simp only [List.length_append, List.length_cons] at hfuel ⊢; omega)
        rw [htail, vlSnoc_eq_append, vlAppend_snoc]
  · -- dict entries
    intro ys hsz hnen hwf hnd acc hfresh rest f hfuel
    obtain ⟨g, rfl⟩ : ∃ g, f = g + 1 := by
      cases f with
      | zero => exact absurd hfuel (by omega)
      | succ g => exact ⟨g, rfl⟩
    cases ys with
    | nil => exact absurd rfl hnen
    | cons k w ys =>
      rw [wfKVList, Bool.and_eq_true, Bool.and_eq_true] at hwf
      obtain ⟨⟨hwk, hww⟩, hwys⟩ := hwf
      cases k with
      | int kn => simp [wfKey] at hwk
      | bool kb => simp [wfKey] at hwk
      | null => simp [wfKey] at hwk
      | str ks =>
      rw [wfKey, keyOk, Bool.and_eq_true] at hwk
      obtain ⟨hk1, hkall⟩ := hwk
      rw [kvsize] at hsz
      have hwpos := vsize_pos w
      have hN1 : N - 1 < N := by omega
      have harrX : renderKVListQ (KVList.cons (PKey.str ks) w ys) ++ '}' :: rest
          = '\'' :: (ks ++ '\'' :: ':' :: (renderAfterKeyQ w ys ++ '}' :: rest)) := by
        rw [renderKVListQ_cons, renderKey]
        simp
      rw [harrX] at hfuel ⊢
      simp only [List.length_cons, List.length_append] at hfuel
      obtain ⟨g2, rfl⟩ : ∃ g2, g = g2 + 1 := by
        cases g with
        | zero => exact absurd hfuel (by omega)
        | succ g2 => exact ⟨g2, rfl⟩
      rw [parseDictLoop, parseVal_squote, parseQuoted_app '\'' ks _ (keyOk_all ks hkall)]
      dsimp only
      rw [keyOf]
      dsimp only
      rw [skipWs_cons_nonws _ (by decide)]
      dsimp only
      rw [if_pos (by decide)]
      have haft := (IH (N - 1) hN1).2.2.2 w ys (by omega) hww hwys (PKey.str ks) acc
        hnd hfresh rest (g2 + 1) (by
          simp only [List.length_append, List.length_cons]
          omega)
      rw [haft]
  · -- after a key
    intro v ys hsz hwv hwys k acc hnd hfresh rest f hfuel
    obtain ⟨g, rfl⟩ : ∃ g, f = g + 1 := by
      cases f with
      | zero => exact absurd hfuel (by omega)
      | succ g => exact ⟨g, rfl⟩
    have hkacc : kvHasKey acc k = false := by
      rw [kvFresh, Bool.and_eq_true] at hfresh
      simpa using hfresh.1
    have hN1 : N - 1 < N := by omega
    cases ys with
    | nil =>
      rw [renderAfterKeyQ] at hfuel ⊢
      rw [parseDictAfterKey]
      have hval := (IH (N - 1) hN1).1 v (by omega) hwv ('}' :: rest) g rfl
        (by simp only [List.length_append, List.length_cons] at hfuel ⊢; omega)
      rw [hval]
      dsimp only
      rw [skipWs_cons_nonws _ (by decide)]
      dsimp only
      rw [if_neg (by decide), if_pos (by decide), kvInsert_fresh _ _ _ hkacc]
    | cons k2 v2 ys2 =>
      have hfr2 := kvFresh_step acc k v (KVList.cons k2 v2 ys2) hfresh hnd
      have hndtl : kvNodup (KVList.cons k2 v2 ys2) = true := by
        rw [kvNodup, Bool.and_eq_true] at hnd
        exact hnd.2
      rw [renderAfterKeyQ] at hfuel ⊢
      rw [parseDictAfterKey]
      have harr : (renderValueQ v ++ ',' :: ' ' :: renderKVListQ (KVList.cons k2 v2 ys2))
            ++ '}' :: rest
          = renderValueQ v
            ++ (',' :: ' ' :: (renderKVListQ (KVList.cons k2 v2 ys2) ++ '}' :: rest)) := by
        simp
      rw [harr] at hfuel ⊢
      have hval := (IH (N - 1) hN1).1 v (by omega) hwv
        (',' :: ' ' :: (renderKVListQ (KVList.cons k2 v2 ys2) ++ '}' :: rest)) g rfl
        (by simp only [List.length_append, List.length_cons] at hfuel ⊢; omega)
      rw [hval]
      dsimp only
      rw [skipWs_cons_nonws _ (by decide)]
      dsimp only
      rw [if_pos (by decide)]
      have hskip : skipWs (' ' :: (renderKVListQ (KVList.cons k2 v2 ys2) ++ '}' :: rest))
          = '\'' :: ((renderKey k2 ++ '\'' :: ':' :: renderAfterKeyQ v2 ys2) ++ '}' :: rest) := by
        rw [skipWs_cons_space, renderKVListQ_cons, List.cons_append,
          skipWs_cons_nonws _ (by decide)]
      rw [hskip]
      dsimp only
      rw [if_neg (by decide)]
      rw [parseDictLoop_congr g _ _ _ (skipWs_cons_space _), kvInsert_fresh _ _ _ hkacc]
      have htail := (IH (N - 1) hN1).2.2.1 (KVList.cons k2 v2 ys2) (by
          rw [kvsize] at hsz ⊢
          omega)
        (by intro hc; cases hc) hwys hndtl
        (kvAppend acc (KVList.cons k v KVList.nil)) hfr2 rest g
        (by simp only [List.length_append, List.length_cons] at hfuel ⊢; omega)
      rw [htail, kvAppend_snoc]

/-- `ast.literal_eval` accepts the transformed rendering of a
well-formed structure and returns exactly that structure. -/
theorem parseLit_renderQ (v : Value) (hwf : wfValue v = true) :
    parseLit (renderValueQ v) = some v := by
  have h := (parse_renderQ (2 * vsize v)).1 v (le_refl _) hwf []
    (2 * (renderValueQ v).length + 2) rfl (by simp)
  rw [List.append_nil] at h
  rw [parseLit, h]
  dsimp only
  rw [if_pos (show skipWs [] = [] from rfl)]

/-- A word character is a clean literal character. -/
theorem wordChar_lit (c : Char) (h : isWordChar c = true) : litCharOk c = true := by
  have h2 := wordChar_keyChar c h
  rw [Bool.and_eq_true] at h2
  exact h2.2

/-- A clean string-body character is a clean literal character. -/
theorem strBody_lit (c : Char)
    (h : (32 ≤ c.toNat && c.toNat ≤ 126 && c != '"' && c != '\\') = true) :
    litCharOk c = true := by
  simp only [Bool.and_eq_true, bne_iff_ne, decide_eq_true_eq] at h
  obtain ⟨⟨⟨h1, h2⟩, _⟩, h4⟩ := h
  rw [litCharOk]
  simp only [Bool.and_eq_true, bne_iff_ne, decide_eq_true_eq]
  exact ⟨⟨h1, h2⟩, h4⟩

/-- Well-formed structures satisfy the parser-image invariant. -/
theorem wf_good : ∀ N : Nat,
    (∀ v, vsize v ≤ N → wfValue v = true → goodValue v = true)
    ∧ (∀ xs, vlsize xs ≤ N → wfVList xs = true → goodVList xs = true)
    ∧ (∀ ys, kvsize ys ≤ N → wfKVList ys = true → goodKVList ys = true) := by
  intro N
  induction N using Nat.strong_induction_on with
  | _ N IH =>
  refine ⟨?_, ?_, ?_⟩
  · intro v hsz hwf
    cases v with
    | str s =>
      rw [wfValue, Bool.and_eq_true] at hwf
      rw [goodValue]
      rw [strBodyOk] at hwf
      exact all_weaken strBody_lit s hwf.1
    | int n => rfl
    | bool b => cases b <;> rfl
    | null => rfl
    | set xs => simp [wfValue] at hwf
    | tuple xs => simp [wfValue] at hwf
    | list xs =>
      rw [wfValue] at hwf
      rw [goodValue, vsize] at *
      have hN1 : N - 1 < N := by omega
      exact (IH (N - 1) hN1).2.1 xs (by omega) hwf
    | dict kvs =>
      rw [wfValue, Bool.and_eq_true] at hwf
      rw [goodValue, Bool.and_eq_true, vsize] at *
      have hN1 : N - 1 < N := by omega
      exact ⟨(IH (N - 1) hN1).2.2 kvs (by omega) hwf.1, hwf.2⟩
  · intro xs hsz hwf
    cases xs with
    | nil => rfl
    | cons v ys =>
      rw [wfVList, Bool.and_eq_true] at hwf
      rw [goodVList, Bool.and_eq_true, vlsize] at *
      have hvp := vsize_pos v
      have hN1 : N - 1 < N := by omega
      exact ⟨(IH (N - 1) hN1).1 v (by omega) hwf.1,
        (IH (N - 1) hN1).2.1 ys (by omega) hwf.2⟩
  · intro ys hsz hwf
    cases ys with
    | nil => rfl
    | cons k v tl =>
      rw [wfKVList, Bool.and_eq_true, Bool.and_eq_true] at hwf
      obtain ⟨⟨hwk, hwv⟩, hwtl⟩ := hwf
      cases k with
      | int kn => simp [wfKey] at hwk
      | bool kb => simp [wfKey] at hwk
      | null => simp [wfKey] at hwk
      | str ks =>
      rw [wfKey, keyOk, Bool.and_eq_true] at hwk
      rw [goodKVList, Bool.and_eq_true, Bool.and_eq_true]
      rw [kvsize] at hsz
      have hvp := vsize_pos v
      have hN1 : N - 1 < N := by omega
      refine ⟨⟨?_, (IH (N - 1) hN1).1 v (by omega) hwv⟩,
        (IH (N - 1) hN1).2.2 tl (by omega) hwtl⟩
      rw [keyClean]
      exact all_weaken wordChar_lit ks hwk.2

/-- Well-formed structures are JSON-faithful: they contain no tuples
and only string dict keys. -/
theorem wf_jsonSafe : ∀ N : Nat,
    (∀ v, vsize v ≤ N → wfValue v = true → jsonSafeValue v = true)
    ∧ (∀ xs, vlsize xs ≤ N → wfVList xs = true → jsonSafeVList xs = true)
    ∧ (∀ ys, kvsize ys ≤ N → wfKVList ys = true → jsonSafeKVList ys = true) := by
  intro N
  induction N using Nat.strong_induction_on with
  | _ N IH =>
  refine ⟨?_, ?_, ?_⟩
  · intro v hsz hwf
    cases v with
    | str s => rfl
    | int n => rfl
    | bool b => rfl
    | null => rfl
    | set xs => simp [wfValue] at hwf
    | tuple xs => simp [wfValue] at hwf
    | list xs =>
      rw [wfValue] at hwf
      rw [jsonSafeValue]
      rw [vsize] at hsz
      have hN1 : N - 1 < N := by omega
      exact (IH (N - 1) hN1).2.1 xs (by omega) hwf
    | dict kvs =>
      rw [wfValue, Bool.and_eq_true] at hwf
      rw [jsonSafeValue]
      rw [vsize] at hsz
      have hN1 : N - 1 < N := by omega
      exact (IH (N - 1) hN1).2.2 kvs (by omega) hwf.1
  · intro xs hsz hwf
    cases xs with
    | nil => rfl
    | cons v ys =>
      rw [wfVList, Bool.and_eq_true] at hwf
      rw [jsonSafeVList, Bool.and_eq_true]
      rw [vlsize] at hsz
      have hvp := vsize_pos v
      have hN1 : N - 1 < N := by omega
      exact ⟨(IH (N - 1) hN1).1 v (by omega) hwf.1,
        (IH (N - 1) hN1).2.1 ys (by omega) hwf.2⟩
  · intro ys hsz hwf
    cases ys with
    | nil => rfl
    | cons k v tl =>
      rw [wfKVList, Bool.and_eq_true, Bool.and_eq_true] at hwf
      obtain ⟨⟨hwk, hwv⟩, hwtl⟩ := hwf
      cases k with
      | int kn => simp [wfKey] at hwk
      | bool kb => simp [wfKey] at hwk
      | null => simp [wfKey] at hwk
      | str ks =>
      rw [jsonSafeKVList, Bool.and_eq_true, Bool.and_eq_true]
      rw [kvsize] at hsz
      have hvp := vsize_pos v
      have hN1 : N - 1 < N := by omega
      exact ⟨⟨rfl, (IH (N - 1) hN1).1 v (by omega) hwv⟩,
        (IH (N - 1) hN1).2.2 tl (by omega) hwtl⟩

/-- Serialization succeeds on every well-formed structure (no sets can
occur). -/
theorem dumps_wf : ∀ N : Nat,
    (∀ v, vsize v ≤ N → wfValue v = true → ∃ d, jsonDumps v = some d)
    ∧ (∀ xs, vlsize xs ≤ N → wfVList xs = true → ∃ d, dumpsVList xs = some d)
    ∧ (∀ ys, kvsize ys ≤ N → wfKVList ys = true → ∃ d, dumpsKVList ys = some d) := by
  intro N
  induction N using Nat.strong_induction_on with
  | _ N IH =>
  refine ⟨?_, ?_, ?_⟩
  · intro v hsz hwf
    cases v with
    | str s => rw [jsonDumps]; exact ⟨_, rfl⟩
    | int n => rw [jsonDumps]; exact ⟨_, rfl⟩
    | bool b => cases b <;> rw [jsonDumps] <;> exact ⟨_, rfl⟩
    | null => rw [jsonDumps]; exact ⟨_, rfl⟩
    | set xs => simp [wfValue] at hwf
    | tuple xs => simp [wfValue] at hwf
    | list xs =>
      rw [wfValue] at hwf
      rw [vsize] at hsz
      have hN1 : N - 1 < N := by omega
      obtain ⟨d, hd⟩ := (IH (N - 1) hN1).2.1 xs (by omega) hwf
      rw [jsonDumps, hd]
      exact ⟨_, rfl⟩
    | dict kvs =>
      rw [wfValue, Bool.and_eq_true] at hwf
      rw [vsize] at hsz
      have hN1 : N - 1 < N := by omega
      obtain ⟨d, hd⟩ := (IH (N - 1) hN1).2.2 kvs (by omega) hwf.1
      rw [jsonDumps, hd]
      exact ⟨_, rfl⟩
  · intro xs hsz hwf
    cases xs with
    | nil => exact ⟨[], rfl⟩
    | cons v ys =>
      rw [wfVList, Bool.and_eq_true] at hwf
      rw [vlsize] at hsz
      have hvp := vsize_pos v
      have hN1 : N - 1 < N := by omega
      obtain ⟨d, hd⟩ := (IH (N - 1) hN1).1 v (by omega) hwf.1
      cases ys with
      | nil => rw [dumpsVList]; exact ⟨d, hd⟩
      | cons w zs =>
        obtain ⟨t, ht⟩ := (IH (N - 1) hN1).2.1 (VList.cons w zs) (by omega) hwf.2
        rw [dumpsVList, hd, ht]
        exact ⟨_, rfl⟩
  · intro ys hsz hwf
    cases ys with
    | nil => exact ⟨[], rfl⟩
    | cons k v tl =>
      rw [wfKVList, Bool.and_eq_true, Bool.and_eq_true] at hwf
      obtain ⟨⟨_, hwv⟩, hwtl⟩ := hwf
      rw [kvsize] at hsz
      have hvp := vsize_pos v
      have hN1 : N - 1 < N := by omega
      obtain ⟨d, hd⟩ := (IH (N - 1) hN1).1 v (by omega) hwv
      cases tl with
      | nil =>
        rw [dumpsKVList, hd]
        exact ⟨_, rfl⟩
      | cons k2 v2 zs =>
        obtain ⟨t, ht⟩ := (IH (N - 1) hN1).2.2 (KVList.cons k2 v2 zs) (by omega) hwtl
        rw [dumpsKVList, hd, ht]
        exact ⟨_, rfl⟩

/-- C8: faithfulness on well-formed versions files.  For every
well-formed structure `v` — no string value contains a word character
immediately followed by `=`, strings are printable ASCII without `"` or
`\`, keys are bare identifiers, dict keys are distinct — `format_json`
on the rendered versions file succeeds, writes serialized JSON `d`, and
`d` denotes exactly `v` (so string values are preserved unchanged). -/
theorem format_json_faithful_on_wf (v : Value) (hwf : wfValue v = true) :
    ∃ d, format_json_run (renderValue v)
        = ([Ev.read, Ev.printVal v, Ev.openW, Ev.write d], d, some v)
      ∧ jsonParse d = some v := by
  obtain ⟨d, hd⟩ := (dumps_wf (vsize v)).1 v (le_refl _) hwf
  refine ⟨d, ?_, ?_⟩
  · rw [format_json_run, pySub_render v hwf, parseLit_renderQ v hwf]
    dsimp only
    rw [hd]
  · have hgood := (wf_good (vsize v)).1 v (le_refl _) hwf
    have hjs := (wf_jsonSafe (vsize v)).1 v (le_refl _) hwf
    have hrt := (jparse_roundtrip (vsize v)).1 v (le_refl _) hgood hjs d hd []
      (2 * d.length + 2) rfl (by simp)
    rw [List.append_nil] at hrt
    rw [jsonParse, hrt]
    dsimp only
    rw [if_pos (show skipWs [] = [] from rfl)]

/-- Witness for `format_json_faithful_on_wf` at the versions structure
of the spec's Scenario 4, `{version="1.0", stable=True}`. -/
theorem format_json_faithful_witness :
    wfValue (Value.dict (KVList.cons (PKey.str (chars "version")) (Value.str (chars "1.0"))
        (KVList.cons (PKey.str (chars "stable")) (Value.bool true) KVList.nil))) = true
    ∧ ∃ d, format_json_run (renderValue (Value.dict (KVList.cons (PKey.str (chars "version"))
          (Value.str (chars "1.0")) (KVList.cons (PKey.str (chars "stable")) (Value.bool true)
          KVList.nil))))
        = ([Ev.read, Ev.printVal (Value.dict (KVList.cons (PKey.str (chars "version"))
            (Value.str (chars "1.0")) (KVList.cons (PKey.str (chars "stable")) (Value.bool true)
            KVList.nil))), Ev.openW, Ev.write d], d,
          some (Value.dict (KVList.cons (PKey.str (chars "version")) (Value.str (chars "1.0"))
            (KVList.cons (PKey.str (chars "stable")) (Value.bool true) KVList.nil))))
      ∧ jsonParse d = some (Value.dict (KVList.cons (PKey.str (chars "version"))
          (Value.str (chars "1.0")) (KVList.cons (PKey.str (chars "stable")) (Value.bool true)
          KVList.nil))) :=
  ⟨rfl, format_json_faithful_on_wf _ rfl⟩
